import Mathlib

/-!
Verification of the `xxtea` Go package (XXTEA block cipher primitive).

Byte buffers are modelled as `List Nat` (each element a byte value `< 256`),
32-bit machine words as `Nat` taken modulo `2 ^ 32` (`M32`).  Go's `panic(em)`
is modelled with `Except`: a failing call returns `Except.error` carrying the
panic message together with the contents of every caller-supplied buffer at
the moment the panic is raised, so that "no mutation before failure" is an
observable statement.  All definitions are transcribed from `xxtea.go`;
definitions whose name begins with `spec` are transcribed from the
natural-language specification instead, for refinement comparison.
-/

namespace XXTEA

/-- `2 ^ 32`, the modulus of Go's `uint32` arithmetic. -/
def M32 : Nat := 4294967296

/-- Source: `delta uint32 = 0x9e3779b9`. -/
def delta : Nat := 0x9e3779b9

/-- Source: the single misuse panic message `em`. -/
def em : String := "xxtea: XXTEA cipher misuse! Read teh Docs, Luke!"

/-- Source: `type TeaKey [4]uint32`. -/
structure TeaKey where
  w0 : Nat
  w1 : Nat
  w2 : Nat
  w3 : Nat
deriving DecidableEq, Repr

/-- Array indexing `k[i]` of the Go `TeaKey`; in the source every index is
`(p & 3) ^ e < 4`, so the catch-all arm is never reached there. -/
def keyAt (k : TeaKey) : Nat → Nat
  | 0 => k.w0
  | 1 => k.w1
  | 2 => k.w2
  | _ => k.w3

/-- Big-endian word assembly
`uint32(b0)<<24 | uint32(b1)<<16 | uint32(b2)<<8 | uint32(b3)`
used by `NewKey` and both load loops. -/
def word32 (b0 b1 b2 b3 : Nat) : Nat :=
  (b0 <<< 24) ||| ((b1 <<< 16) ||| ((b2 <<< 8) ||| b3))

/-- Source: `func NewKey(key []byte) (k TeaKey)`.  Panics (`Except.error`)
when `len(key) != 16` or when the or-accumulator `c` of the four assembled
words is zero.  The error carries the untouched caller buffer. -/
def NewKey (key : List Nat) : Except (String × List Nat) TeaKey :=
  if key.length ≠ 16 then .error (em, key)
  else
    let k0 := word32 (key.getD 0 0) (key.getD 1 0) (key.getD 2 0) (key.getD 3 0)
    let k1 := word32 (key.getD 4 0) (key.getD 5 0) (key.getD 6 0) (key.getD 7 0)
    let k2 := word32 (key.getD 8 0) (key.getD 9 0) (key.getD 10 0) (key.getD 11 0)
    let k3 := word32 (key.getD 12 0) (key.getD 13 0) (key.getD 14 0) (key.getD 15 0)
    if k0 ||| (k1 ||| (k2 ||| k3)) = 0 then .error (em, key)
    else .ok ⟨k0, k1, k2, k3⟩

/-- Source: `chk4len(l)`; `none` models the panic, otherwise `l - 1` is
returned (the index of the last element). -/
def chk4len (l : Nat) : Option Nat :=
  if l < 4 ∨ l % 4 ≠ 0 then none else some (l - 1)

/-- The mixing expression
`((z>>5 ^ y<<2) + (y>>3 ^ z<<4)) ^ ((sum ^ y) + (kw ^ z))`
appearing (as `MX`) in both `Encrypt` and `Decrypt`, in `uint32` arithmetic. -/
def mx (y z sum kw : Nat) : Nat :=
  ((((z >>> 5) ^^^ ((y <<< 2) % M32)) + ((y >>> 3) ^^^ ((z <<< 4) % M32))) % M32) ^^^
    (((sum ^^^ y) + (kw ^^^ z)) % M32)

/-- Body of the inner encryption loop at position `p`:
`y = v[p+1]; v[p] += MX; z = v[p]`.  Returns the updated vector and `z`. -/
def encBody (k : TeaKey) (sum e p : Nat) (v : List Nat) (z : Nat) : List Nat × Nat :=
  let y := v.getD (p + 1) 0
  let w := (v.getD p 0 + mx y z sum (keyAt k ((p &&& 3) ^^^ e))) % M32
  (v.set p w, w)

/-- The inner encryption loop `for p = 0; p < n-1; p++ {...}` as a recursion
on the remaining iteration count; also returns the final value of `p`. -/
def encInner (k : TeaKey) (sum e : Nat) : Nat → Nat → List Nat → Nat → (List Nat × Nat) × Nat
  | 0, p, v, z => ((v, z), p)
  | cnt + 1, p, v, z =>
    let r := encBody k sum e p v z
    encInner k sum e cnt (p + 1) r.1 r.2

/-- One encryption round (fixed `sum`): the inner loop over `p = 0 .. n-2`
followed by `y = v[0]; v[n-1] += MX; z = v[n-1]`, where the final `MX` uses
the loop's final `p`. -/
def encRound (k : TeaKey) (n sum : Nat) (v : List Nat) (z : Nat) : List Nat × Nat :=
  let e := (sum >>> 2) &&& 3
  let r := encInner k sum e (n - 1) 0 v z
  let v1 := r.1.1
  let z1 := r.1.2
  let p := r.2
  let y := v1.getD 0 0
  let w := (v1.getD (n - 1) 0 + mx y z1 sum (keyAt k ((p &&& 3) ^^^ e))) % M32
  (v1.set (n - 1) w, w)

/-- The round loop `for rounds > 0 { rounds--; sum += delta; ... }` of
`Encrypt`, recursing on the remaining round count. -/
def encLoop (k : TeaKey) (n : Nat) : Nat → Nat → List Nat → Nat → List Nat × Nat
  | 0, _, v, z => (v, z)
  | r + 1, sum, v, z =>
    let s := (sum + delta) % M32
    let vz := encRound k n s v z
    encLoop k n r s vz.1 vz.2

/-- The complete word-level encryption transform of `Encrypt`:
`rounds = 6 + 52/n`, `z = v[n-1]`, then the round loop starting at `sum = 0`. -/
def encryptWords (k : TeaKey) (n : Nat) (v : List Nat) : List Nat :=
  let rounds := 6 + 52 / n
  (encLoop k n rounds 0 v (v.getD (n - 1) 0)).1

/-- Body of the inner decryption loop at position `p`:
`z = v[p-1]; v[p] -= MX; y = v[p]` (uint32 subtraction). -/
def decBody (k : TeaKey) (sum e p : Nat) (v : List Nat) (y : Nat) : List Nat × Nat :=
  let z := v.getD (p - 1) 0
  let w := (v.getD p 0 + (M32 - mx y z sum (keyAt k ((p &&& 3) ^^^ e)))) % M32
  (v.set p w, w)

/-- The inner decryption loop `for p = n-1; p > 0; p-- {...}` as a recursion
on the remaining iteration count; also returns the final value of `p`. -/
def decInner (k : TeaKey) (sum e : Nat) : Nat → Nat → List Nat → Nat → (List Nat × Nat) × Nat
  | 0, p, v, y => ((v, y), p)
  | cnt + 1, p, v, y =>
    let r := decBody k sum e p v y
    decInner k sum e cnt (p - 1) r.1 r.2

/-- One decryption round (fixed `sum`): the inner loop over `p = n-1 .. 1`
followed by `z = v[n-1]; v[0] -= MX; y = v[0]`, where the final `MX` uses
the loop's final `p`. -/
def decRound (k : TeaKey) (n sum : Nat) (v : List Nat) (y : Nat) : List Nat × Nat :=
  let e := (sum >>> 2) &&& 3
  let r := decInner k sum e (n - 1) (n - 1) v y
  let v1 := r.1.1
  let y1 := r.1.2
  let p := r.2
  let z := v1.getD (n - 1) 0
  let w := (v1.getD 0 0 + (M32 - mx y1 z sum (keyAt k ((p &&& 3) ^^^ e)))) % M32
  (v1.set 0 w, w)

/-- The round loop of `Decrypt`: round first, then `sum -= delta`. -/
def decLoop (k : TeaKey) (n : Nat) : Nat → Nat → List Nat → Nat → List Nat × Nat
  | 0, _, v, y => (v, y)
  | r + 1, sum, v, y =>
    let vy := decRound k n sum v y
    decLoop k n r ((sum + (M32 - delta)) % M32) vy.1 vy.2

/-- The complete word-level decryption transform of `Decrypt`:
`rounds = 6 + 52/n`, `y = v[0]`, `sum = rounds * delta` (uint32), then the
round loop. -/
def decryptWords (k : TeaKey) (n : Nat) (v : List Nat) : List Nat :=
  let rounds := 6 + 52 / n
  (decLoop k n rounds ((rounds * delta) % M32) v (v.getD 0 0)).1

/-- The load loop `for n = 0; n < z; n += 4 { v[n>>2] = ... }` over the first
`z` bytes of `in`, one big-endian word per 4-byte chunk.  It is applied to
`in.take z`; when `4 ∣ z ≤ len(in)`, the catch-all arm is reached only at
`[]` (the source loop never reads out of bounds, see claim C9). -/
def loadWords : List Nat → List Nat
  | b0 :: b1 :: b2 :: b3 :: rest => word32 b0 b1 b2 b3 :: loadWords rest
  | _ => []

/-- The serialize loop
`out[n], out[n+1], out[n+2], out[n+3] = byte(k>>24), byte(k>>16), byte(k>>8), byte(k)`,
writing the words back as big-endian bytes in order. -/
def storeWords : List Nat → List Nat
  | [] => []
  | w :: ws =>
    (w >>> 24) % 256 :: ((w >>> 16) % 256 :: ((w >>> 8) % 256 :: (w % 256 :: storeWords ws)))

/-- The guard of `Encrypt`/`Decrypt`:
`z := uint32(len(in)); z < 12 || z > 208 || z&3 != 0 || z != uint32(len(out))`.
The `uint32` casts of Go slice lengths are `% M32`. -/
def lenBad (lin lout : Nat) : Prop :=
  lin % M32 < 12 ∨ 208 < lin % M32 ∨ lin % M32 % 4 ≠ 0 ∨ lin % M32 ≠ lout % M32

instance (lin lout : Nat) : Decidable (lenBad lin lout) := by
  unfold lenBad; infer_instance

/-- Source: `func (k TeaKey) Encrypt(in, out []byte) []byte`.  On a failed
length check it panics before writing to `out` (the error carries both
untouched buffers); otherwise it loads `z = uint32(len(in))` bytes, runs the
rounds, and writes `z` bytes into `out`, leaving any bytes of `out` past
index `z - 1` unchanged. -/
def TeaKey.Encrypt (k : TeaKey) (inp outp : List Nat) :
    Except (String × List Nat × List Nat) (List Nat) :=
  if lenBad inp.length outp.length then .error (em, inp, outp)
  else
    let z := inp.length % M32
    let v := loadWords (inp.take z)
    let n := z / 4
    .ok (storeWords (encryptWords k n v) ++ outp.drop z)

/-- Source: `func (k TeaKey) Decrypt(in, out []byte) []byte`, with the same
guard and buffer handling as `Encrypt`. -/
def TeaKey.Decrypt (k : TeaKey) (inp outp : List Nat) :
    Except (String × List Nat × List Nat) (List Nat) :=
  if lenBad inp.length outp.length then .error (em, inp, outp)
  else
    let z := inp.length % M32
    let v := loadWords (inp.take z)
    let n := z / 4
    .ok (storeWords (decryptWords k n v) ++ outp.drop z)

/-- The simultaneous 8-byte assignment of `AsBELE`: chunk `d[i..i+3]` and
chunk `d[l-3..l]` exchange places (all right-hand sides are read before any
write, matching Go's tuple assignment). -/
def swapBELE (i l : Nat) (d : List Nat) : List Nat :=
  let a0 := d.getD i 0
  let a1 := d.getD (i + 1) 0
  let a2 := d.getD (i + 2) 0
  let a3 := d.getD (i + 3) 0
  let b0 := d.getD (l - 3) 0
  let b1 := d.getD (l - 2) 0
  let b2 := d.getD (l - 1) 0
  let b3 := d.getD l 0
  let d1 := (((d.set i b0).set (i + 1) b1).set (i + 2) b2).set (i + 3) b3
  (((d1.set (l - 3) a0).set (l - 2) a1).set (l - 1) a2).set l a3

/-- The `for i < l` loop of `AsBELE` (`i += 4`, `l -= 4` each iteration),
recursing on a fuel bound; `AsBELE` supplies fuel `len(d)`, which exceeds
the iteration count, and once `i ≥ l` extra fuel changes nothing. -/
def asBELEgo : Nat → Nat → Nat → List Nat → List Nat
  | 0, _, _, d => d
  | fuel + 1, i, l, d =>
    if i < l then asBELEgo fuel (i + 4) (l - 4) (swapBELE i l d) else d

/-- Source: `func AsBELE(d []byte) []byte`; `chk4len` runs before any swap. -/
def AsBELE (d : List Nat) : Except (String × List Nat) (List Nat) :=
  match chk4len d.length with
  | none => .error (em, d)
  | some l => .ok (asBELEgo d.length 0 l d)

/-- The simultaneous 4-byte assignment of `AsLEBE`: the chunk `d[i..i+3]`
is reversed in place. -/
def swapLEBE (i : Nat) (d : List Nat) : List Nat :=
  let a0 := d.getD i 0
  let a1 := d.getD (i + 1) 0
  let a2 := d.getD (i + 2) 0
  let a3 := d.getD (i + 3) 0
  (((d.set i a3).set (i + 1) a2).set (i + 2) a1).set (i + 3) a0

/-- The `for i < chk4len(len(d))` loop of `AsLEBE`: the check is
re-evaluated at every iteration (on the current buffer, whose length never
changes), so a failure can only happen on the first evaluation, before any
swap. -/
def asLEBEgo : Nat → Nat → List Nat → Except (String × List Nat) (List Nat)
  | 0, _, d => .ok d
  | fuel + 1, i, d =>
    match chk4len d.length with
    | none => .error (em, d)
    | some l => if i < l then asLEBEgo fuel (i + 4) (swapLEBE i d) else .ok d

/-- Source: `func AsLEBE(d []byte) []byte`. -/
def AsLEBE (d : List Nat) : Except (String × List Nat) (List Nat) :=
  asLEBEgo (d.length + 1) 0 d

/-- The swap `d[i], d[l] = d[l], d[i]` of `AsLELE`. -/
def swapLELE (i l : Nat) (d : List Nat) : List Nat :=
  let a := d.getD i 0
  let b := d.getD l 0
  (d.set i b).set l a

/-- The `for i < l` loop of `AsLELE` (`i++`, `l--` each iteration). -/
def asLELEgo : Nat → Nat → Nat → List Nat → List Nat
  | 0, _, _, d => d
  | fuel + 1, i, l, d =>
    if i < l then asLELEgo fuel (i + 1) (l - 1) (swapLELE i l d) else d

/-- Source: `func AsLELE(d []byte) []byte`; `chk4len` runs before any swap. -/
def AsLELE (d : List Nat) : Except (String × List Nat) (List Nat) :=
  match chk4len d.length with
  | none => .error (em, d)
  | some l => .ok (asLELEgo d.length 0 l d)

/-- Abbreviations for conditional rewriting with arithmetic side goals. -/
theorem ite_of_pos {c : Prop} [Decidable c] {α : Sort _} {a b : α} (hc : c) :
    (if c then a else b) = a := if_pos hc

theorem ite_of_neg {c : Prop} [Decidable c] {α : Sort _} {a b : α} (hc : ¬c) :
    (if c then a else b) = b := if_neg hc

/-! ### Arithmetic helpers -/

theorem M32_eq : M32 = 2 ^ 32 := by norm_num [M32]

theorem mod_M32_lt (a : Nat) : a % M32 < M32 :=
  Nat.mod_lt _ (by norm_num [M32])

theorem mod_M32_add_left (a b : Nat) : (a % M32 + b) % M32 = (a + b) % M32 := by
  unfold M32; omega

theorem xor_lt_M32 {a b : Nat} (ha : a < M32) (hb : b < M32) : a ^^^ b < M32 := by
  rw [M32_eq] at ha hb ⊢
  exact Nat.xor_lt_two_pow ha hb

theorem mx_lt (y z sum kw : Nat) : mx y z sum kw < M32 :=
  xor_lt_M32 (mod_M32_lt _) (mod_M32_lt _)

theorem lor_eq_zero_iff (a b : Nat) : a ||| b = 0 ↔ a = 0 ∧ b = 0 := by
  constructor
  · intro h
    constructor <;> refine Nat.eq_of_testBit_eq fun i => ?_
    · have hi := congrArg (fun t => Nat.testBit t i) h
      simp only [Nat.testBit_lor, Nat.zero_testBit, Bool.or_eq_false_iff] at hi
      simp [hi.1]
    · have hi := congrArg (fun t => Nat.testBit t i) h
      simp only [Nat.testBit_lor, Nat.zero_testBit, Bool.or_eq_false_iff] at hi
      simp [hi.2]
  · rintro ⟨rfl, rfl⟩; rfl

theorem shiftLeft_or_eq_add {t a b : Nat} (h : b < 2 ^ t) :
    (a <<< t) ||| b = a * 2 ^ t + b := by
  rw [Nat.shiftLeft_eq]
  refine Nat.eq_of_testBit_eq fun i => ?_
  rw [Nat.mul_comm a (2 ^ t), Nat.testBit_mul_pow_two_add a h i, Nat.testBit_lor,
    Nat.mul_comm (2 ^ t) a, ← Nat.shiftLeft_eq, Nat.testBit_shiftLeft]
  by_cases hik : i < t
  · simp [hik, Nat.not_le_of_lt hik]
  · have hbi : Nat.testBit b i = false :=
      Nat.testBit_lt_two_pow (lt_of_lt_of_le h (Nat.pow_le_pow_right (by norm_num) (by omega)))
    simp [hik, Nat.le_of_not_lt hik, hbi]

theorem word32_eq {b0 b1 b2 b3 : Nat} (h0 : b0 < 256) (h1 : b1 < 256) (h2 : b2 < 256)
    (h3 : b3 < 256) : word32 b0 b1 b2 b3 = ((b0 * 256 + b1) * 256 + b2) * 256 + b3 := by
  unfold word32
  rw [shiftLeft_or_eq_add (b := b3) (t := 8) (by omega),
    shiftLeft_or_eq_add (b := b2 * 2 ^ 8 + b3) (t := 16) (by norm_num; omega),
    shiftLeft_or_eq_add (t := 24) (by norm_num; omega)]
  norm_num
  ring

theorem word32_lt {b0 b1 b2 b3 : Nat} (h0 : b0 < 256) (h1 : b1 < 256) (h2 : b2 < 256)
    (h3 : b3 < 256) : word32 b0 b1 b2 b3 < M32 := by
  rw [word32_eq h0 h1 h2 h3]; unfold M32; omega

theorem word32_eq_zero_iff (b0 b1 b2 b3 : Nat) :
    word32 b0 b1 b2 b3 = 0 ↔ b0 = 0 ∧ b1 = 0 ∧ b2 = 0 ∧ b3 = 0 := by
  unfold word32
  rw [lor_eq_zero_iff, lor_eq_zero_iff, lor_eq_zero_iff]
  simp [Nat.shiftLeft_eq, Nat.mul_eq_zero]

/-! ### List access helpers -/

theorem getD_set_ne {l : List Nat} {i j : Nat} (h : i ≠ j) (a : Nat) :
    (l.set i a).getD j 0 = l.getD j 0 := by
  rw [List.getD_eq_getElem?_getD, List.getD_eq_getElem?_getD, List.getElem?_set_ne h]

theorem getD_set_self {l : List Nat} {i : Nat} (h : i < l.length) (a : Nat) :
    (l.set i a).getD i 0 = a := by
  rw [List.getD_eq_getElem?_getD, List.getElem?_set_self' ]
  simp [List.getElem?_eq_getElem h]

theorem set_getD_self {l : List Nat} {i : Nat} : l.set i (l.getD i 0) = l := by
  refine List.ext_getElem? fun j => ?_
  rw [List.getElem?_set]
  by_cases hij : i = j
  · subst hij
    by_cases hi : i < l.length
    · simp [hi, List.getD_eq_getElem?_getD, List.getElem?_eq_getElem hi]
    · simp [hi, List.getElem?_eq_none (by omega : l.length ≤ i)]
  · simp [hij]

theorem getD_lt_M32 {l : List Nat} (h : ∀ x ∈ l, x < M32) (i : Nat) : l.getD i 0 < M32 := by
  by_cases hi : i < l.length
  · rw [List.getD_eq_getElem?_getD, List.getElem?_eq_getElem hi]
    exact h _ (List.getElem_mem hi)
  · rw [List.getD_eq_getElem?_getD, List.getElem?_eq_none (by omega : l.length ≤ i)]
    simp [M32]

theorem forall_lt_set {l : List Nat} {a i : Nat} (h : ∀ x ∈ l, x < M32) (ha : a < M32) :
    ∀ x ∈ l.set i a, x < M32 := by
  intro x hx
  rcases List.mem_or_eq_of_mem_set hx with hm | rfl
  · exact h _ hm
  · exact ha

/-! ### Loading and serializing words -/

theorem chunk4_ind (P : List Nat → Prop) (hnil : P [])
    (hcons : ∀ b0 b1 b2 b3 rest, 4 ∣ rest.length → P rest → P (b0 :: b1 :: b2 :: b3 :: rest)) :
    ∀ (q : Nat) (b : List Nat), b.length = 4 * q → P b := by
  intro q
  induction q with
  | zero =>
    intro b hb
    have : b = [] := List.eq_nil_of_length_eq_zero (by omega)
    simpa [this]
  | succ q ih =>
    intro b hb
    match b with
    | [] => simp at hb
    | [_] => simp at hb; omega
    | [_, _] => simp at hb; omega
    | [_, _, _] => simp at hb; omega
    | b0 :: b1 :: b2 :: b3 :: rest =>
      have hr : rest.length = 4 * q := by simp at hb; omega
      exact hcons b0 b1 b2 b3 rest ⟨q, hr⟩ (ih rest hr)

theorem length_loadWords : ∀ (q : Nat) (b : List Nat), b.length = 4 * q →
    (loadWords b).length = b.length / 4 := by
  refine chunk4_ind _ (by simp [loadWords]) ?_
  intro b0 b1 b2 b3 rest hdvd ih
  obtain ⟨q, hq⟩ := hdvd
  simp only [loadWords, List.length_cons, ih]
  omega

theorem loadWords_lt : ∀ (q : Nat) (b : List Nat), b.length = 4 * q →
    (∀ x ∈ b, x < 256) → ∀ w ∈ loadWords b, w < M32 := by
  refine chunk4_ind (fun b => (∀ x ∈ b, x < 256) → ∀ w ∈ loadWords b, w < M32)
    (by simp [loadWords]) ?_
  intro b0 b1 b2 b3 rest _ ih hb w hw
  simp only [loadWords, List.mem_cons] at hw
  rcases hw with rfl | hw
  · exact word32_lt (hb _ (by simp)) (hb _ (by simp)) (hb _ (by simp)) (hb _ (by simp))
  · exact ih (fun x hx => hb x (by simp [hx])) w hw

theorem bytes_of_word32 {b0 b1 b2 b3 : Nat} (h0 : b0 < 256) (h1 : b1 < 256) (h2 : b2 < 256)
    (h3 : b3 < 256) :
    (word32 b0 b1 b2 b3 >>> 24) % 256 = b0 ∧ (word32 b0 b1 b2 b3 >>> 16) % 256 = b1 ∧
      (word32 b0 b1 b2 b3 >>> 8) % 256 = b2 ∧ word32 b0 b1 b2 b3 % 256 = b3 := by
  rw [word32_eq h0 h1 h2 h3]
  simp only [Nat.shiftRight_eq_div_pow]
  norm_num
  omega

theorem storeWords_loadWords : ∀ (q : Nat) (b : List Nat), b.length = 4 * q →
    (∀ x ∈ b, x < 256) → storeWords (loadWords b) = b := by
  refine chunk4_ind (fun b => (∀ x ∈ b, x < 256) → storeWords (loadWords b) = b)
    (by simp [loadWords, storeWords]) ?_
  intro b0 b1 b2 b3 rest _ ih hb
  have h0 : b0 < 256 := hb _ (by simp)
  have h1 : b1 < 256 := hb _ (by simp)
  have h2 : b2 < 256 := hb _ (by simp)
  have h3 : b3 < 256 := hb _ (by simp)
  obtain ⟨e0, e1, e2, e3⟩ := bytes_of_word32 h0 h1 h2 h3
  simp only [loadWords, storeWords, e0, e1, e2, e3, List.cons.injEq, true_and]
  exact ih fun x hx => hb x (by simp [hx])

theorem word32_of_bytes {w : Nat} (hw : w < M32) :
    word32 ((w >>> 24) % 256) ((w >>> 16) % 256) ((w >>> 8) % 256) (w % 256) = w := by
  rw [word32_eq (by omega) (by omega) (by omega) (by omega)]
  simp only [Nat.shiftRight_eq_div_pow]
  rw [M32_eq] at hw
  norm_num
  omega

theorem loadWords_storeWords : ∀ w : List Nat, (∀ x ∈ w, x < M32) →
    loadWords (storeWords w) = w := by
  intro w
  induction w with
  | nil => simp [storeWords, loadWords]
  | cons a t ih =>
    intro hw
    have ha : a < M32 := hw a (by simp)
    simp only [storeWords, loadWords, word32_of_bytes ha, List.cons.injEq, true_and]
    exact ih fun x hx => hw x (by simp [hx])

theorem length_storeWords : ∀ w : List Nat, (storeWords w).length = 4 * w.length := by
  intro w
  induction w with
  | nil => simp [storeWords]
  | cons a t ih => simp [storeWords, ih]; omega

/-!
### Cyclic reformulation of the round structure

The source loops thread `z` (encryption) and `y` (decryption) through the
iterations.  At the step updating position `p`, the threaded value always
equals the current vector entry at the cyclic neighbour `(p + n - 1) % n`
(resp. `(p + 1) % n`), so every step reads only the two cyclic neighbours of
`p`.  The following definitions express one round as a sequence of such
self-contained position updates; the `*_eq` bridge lemmas below prove them
equal to the transcribed source loops, and the inversion proof is carried
out on this form.
-/

/-- The `MX` value consumed by the update of position `p`, read off the
current vector: `y` is the cyclic successor entry, `z` the cyclic
predecessor entry. -/
def mixAt (k : TeaKey) (n sum e p : Nat) (v : List Nat) : Nat :=
  mx (v.getD ((p + 1) % n) 0) (v.getD ((p + n - 1) % n) 0) sum (keyAt k ((p &&& 3) ^^^ e))

/-- One encryption update: `v[p] += MX` (uint32). -/
def stepE (k : TeaKey) (n sum e p : Nat) (v : List Nat) : List Nat :=
  v.set p ((v.getD p 0 + mixAt k n sum e p v) % M32)

/-- One decryption update: `v[p] -= MX` (uint32). -/
def stepD (k : TeaKey) (n sum e p : Nat) (v : List Nat) : List Nat :=
  v.set p ((v.getD p 0 + (M32 - mixAt k n sum e p v)) % M32)

/-- `cnt` encryption updates at ascending positions `p, p+1, ..., p+cnt-1`. -/
def runE (k : TeaKey) (n sum e : Nat) : Nat → Nat → List Nat → List Nat
  | 0, _, v => v
  | cnt + 1, p, v => runE k n sum e cnt (p + 1) (stepE k n sum e p v)

/-- `cnt` decryption updates at descending positions `p, p-1, ..., p-cnt+1`. -/
def runD (k : TeaKey) (n sum e : Nat) : Nat → Nat → List Nat → List Nat
  | 0, _, v => v
  | cnt + 1, p, v => runD k n sum e cnt (p - 1) (stepD k n sum e p v)

/-- One full encryption round in cyclic form: positions `0, ..., n-1`. -/
def roundE (k : TeaKey) (n sum : Nat) (v : List Nat) : List Nat :=
  runE k n sum ((sum >>> 2) &&& 3) n 0 v

/-- One full decryption round in cyclic form: positions `n-1, ..., 0`. -/
def roundD (k : TeaKey) (n sum : Nat) (v : List Nat) : List Nat :=
  runD k n sum ((sum >>> 2) &&& 3) n (n - 1) v

/-- The encryption round loop in cyclic form. -/
def loopE (k : TeaKey) (n : Nat) : Nat → Nat → List Nat → List Nat
  | 0, _, v => v
  | r + 1, s, v => loopE k n r ((s + delta) % M32) (roundE k n ((s + delta) % M32) v)

/-- The decryption round loop in cyclic form. -/
def loopD (k : TeaKey) (n : Nat) : Nat → Nat → List Nat → List Nat
  | 0, _, v => v
  | r + 1, s, v => loopD k n r ((s + (M32 - delta)) % M32) (roundD k n s v)

theorem length_stepE (k : TeaKey) (n sum e p : Nat) (v : List Nat) :
    (stepE k n sum e p v).length = v.length := List.length_set ..

theorem length_stepD (k : TeaKey) (n sum e p : Nat) (v : List Nat) :
    (stepD k n sum e p v).length = v.length := List.length_set ..

theorem length_runE (k : TeaKey) (n sum e : Nat) :
    ∀ (cnt p : Nat) (v : List Nat), (runE k n sum e cnt p v).length = v.length := by
  intro cnt
  induction cnt with
  | zero => intro p v; rfl
  | succ cnt ih => intro p v; rw [runE, ih, length_stepE]

theorem length_runD (k : TeaKey) (n sum e : Nat) :
    ∀ (cnt p : Nat) (v : List Nat), (runD k n sum e cnt p v).length = v.length := by
  intro cnt
  induction cnt with
  | zero => intro p v; rfl
  | succ cnt ih => intro p v; rw [runD, ih, length_stepD]

theorem valid_stepE (k : TeaKey) (n sum e p : Nat) {v : List Nat} (h : ∀ x ∈ v, x < M32) :
    ∀ x ∈ stepE k n sum e p v, x < M32 :=
  forall_lt_set h (mod_M32_lt _)

theorem valid_stepD (k : TeaKey) (n sum e p : Nat) {v : List Nat} (h : ∀ x ∈ v, x < M32) :
    ∀ x ∈ stepD k n sum e p v, x < M32 :=
  forall_lt_set h (mod_M32_lt _)

theorem valid_runE (k : TeaKey) (n sum e : Nat) :
    ∀ (cnt p : Nat) {v : List Nat}, (∀ x ∈ v, x < M32) →
      ∀ x ∈ runE k n sum e cnt p v, x < M32 := by
  intro cnt
  induction cnt with
  | zero => intro p v h; exact h
  | succ cnt ih => intro p v h; exact ih (p + 1) (valid_stepE k n sum e p h)

theorem valid_roundE (k : TeaKey) (n sum : Nat) {v : List Nat} (h : ∀ x ∈ v, x < M32) :
    ∀ x ∈ roundE k n sum v, x < M32 :=
  valid_runE k n sum ((sum >>> 2) &&& 3) n 0 h

theorem valid_loopE (k : TeaKey) (n : Nat) :
    ∀ (r s : Nat) {v : List Nat}, (∀ x ∈ v, x < M32) →
      ∀ x ∈ loopE k n r s v, x < M32 := by
  intro r
  induction r with
  | zero => intro s v h; exact h
  | succ r ih => intro s v h; exact ih _ (valid_roundE k n _ h)

theorem length_roundE (k : TeaKey) (n sum : Nat) (v : List Nat) :
    (roundE k n sum v).length = v.length := length_runE ..

theorem length_roundD (k : TeaKey) (n sum : Nat) (v : List Nat) :
    (roundD k n sum v).length = v.length := length_runD ..

theorem length_loopE (k : TeaKey) (n : Nat) :
    ∀ (r s : Nat) (v : List Nat), (loopE k n r s v).length = v.length := by
  intro r
  induction r with
  | zero => intro s v; rfl
  | succ r ih => intro s v; rw [loopE, ih, length_roundE]

/-- Peeling the last update off an ascending run. -/
theorem runE_snoc (k : TeaKey) (n sum e : Nat) :
    ∀ (cnt p : Nat) (v : List Nat),
      runE k n sum e (cnt + 1) p v = stepE k n sum e (p + cnt) (runE k n sum e cnt p v) := by
  intro cnt
  induction cnt with
  | zero => intro p v; rfl
  | succ cnt ih =>
    intro p v
    rw [show runE k n sum e (cnt + 1 + 1) p v
        = runE k n sum e (cnt + 1) (p + 1) (stepE k n sum e p v) from rfl, ih,
      show runE k n sum e (cnt + 1) p v
        = runE k n sum e cnt (p + 1) (stepE k n sum e p v) from rfl]
    congr 1
    omega

/-- Peeling the last update off a descending run. -/
theorem runD_snoc (k : TeaKey) (n sum e : Nat) :
    ∀ (cnt p : Nat) (v : List Nat),
      runD k n sum e (cnt + 1) p v = stepD k n sum e (p - cnt) (runD k n sum e cnt p v) := by
  intro cnt
  induction cnt with
  | zero => intro p v; rfl
  | succ cnt ih =>
    intro p v
    rw [show runD k n sum e (cnt + 1 + 1) p v
        = runD k n sum e (cnt + 1) (p - 1) (stepD k n sum e p v) from rfl, ih,
      show runD k n sum e (cnt + 1) p v
        = runD k n sum e cnt (p - 1) (stepD k n sum e p v) from rfl]
    congr 1
    omega

/-- The two cyclic neighbours of a position are distinct from it when the
vector has at least two entries. -/
theorem cyclic_ne {n q : Nat} (hn : 2 ≤ n) (hq : q < n) :
    (q + 1) % n ≠ q ∧ (q + n - 1) % n ≠ q := by
  constructor
  · intro h
    rcases Nat.lt_or_ge (q + 1) n with hlt | hge
    · rw [Nat.mod_eq_of_lt hlt] at h; omega
    · have hq1 : q + 1 = n := by omega
      rw [hq1, Nat.mod_self] at h; omega
  · intro h
    rcases Nat.eq_zero_or_pos q with rfl | hpos
    · rw [Nat.mod_eq_of_lt (by omega)] at h; omega
    · have : q + n - 1 = n + (q - 1) := by omega
      rw [this, Nat.add_mod_left, Nat.mod_eq_of_lt (by omega)] at h
      omega

/-- A decryption update undoes the matching encryption update: the `MX`
value depends only on the (unchanged) neighbours of `q`. -/
theorem stepD_stepE (k : TeaKey) {n : Nat} (sum e : Nat) {q : Nat} {v : List Nat}
    (hn : 2 ≤ n) (hq : q < n) (hlen : v.length = n) (hv : ∀ x ∈ v, x < M32) :
    stepD k n sum e q (stepE k n sum e q v) = v := by
  obtain ⟨hy, hz⟩ := cyclic_ne hn hq
  have hmix : mixAt k n sum e q (stepE k n sum e q v) = mixAt k n sum e q v := by
    unfold mixAt stepE
    rw [getD_set_ne (by omega) _, getD_set_ne (by omega) _]
  unfold stepD
  rw [hmix]
  unfold stepE
  rw [getD_set_self (by omega) _, List.set_set]
  have ha : v.getD q 0 < M32 := getD_lt_M32 hv q
  have hm : mixAt k n sum e q v < M32 := mx_lt ..
  have : ((v.getD q 0 + mixAt k n sum e q v) % M32 + (M32 - mixAt k n sum e q v)) % M32
      = v.getD q 0 := by
    rw [mod_M32_add_left]
    have : v.getD q 0 + mixAt k n sum e q v + (M32 - mixAt k n sum e q v)
        = v.getD q 0 + M32 := by omega
    rw [this, Nat.add_mod_right, Nat.mod_eq_of_lt ha]
  rw [this, set_getD_self]

/-- A descending run of decryption updates undoes the matching ascending run
of encryption updates. -/
theorem runD_runE (k : TeaKey) {n : Nat} (sum e : Nat) (hn : 2 ≤ n) :
    ∀ (cnt p : Nat) {v : List Nat}, p + cnt ≤ n → v.length = n → (∀ x ∈ v, x < M32) →
      runD k n sum e cnt (p + cnt - 1) (runE k n sum e cnt p v) = v := by
  intro cnt
  induction cnt with
  | zero => intro p v _ _ _; rfl
  | succ cnt ih =>
    intro p v hpn hlen hv
    rw [runE_snoc, runD,
      show p + (cnt + 1) - 1 - 1 = p + cnt - 1 by omega,
      show p + (cnt + 1) - 1 = p + cnt by omega,
      stepD_stepE k sum e hn (by omega)
        (by rw [length_runE, hlen]) (valid_runE k n sum e cnt p hv)]
    exact ih p (by omega) hlen hv

/-- A cyclic decryption round undoes the cyclic encryption round with the
same round sum. -/
theorem roundD_roundE (k : TeaKey) {n : Nat} (sum : Nat) (hn : 2 ≤ n) {v : List Nat}
    (hlen : v.length = n) (hv : ∀ x ∈ v, x < M32) :
    roundD k n sum (roundE k n sum v) = v := by
  unfold roundD roundE
  have := runD_runE k sum ((sum >>> 2) &&& 3) hn n 0 (by omega) hlen hv
  simpa using this

/-- Peeling the last round off the encryption round loop. -/
theorem loopE_snoc (k : TeaKey) (n : Nat) :
    ∀ (r s : Nat) (v : List Nat),
      loopE k n (r + 1) s v = roundE k n ((s + (r + 1) * delta) % M32) (loopE k n r s v) := by
  intro r
  induction r with
  | zero =>
    intro s v
    show roundE k n ((s + delta) % M32) v = roundE k n ((s + 1 * delta) % M32) v
    rw [Nat.one_mul]
  | succ r ih =>
    intro s v
    rw [show loopE k n (r + 1 + 1) s v
        = loopE k n (r + 1) ((s + delta) % M32) (roundE k n ((s + delta) % M32) v) from rfl,
      ih]
    have harith : ((s + delta) % M32 + (r + 1) * delta) % M32
        = (s + (r + 1 + 1) * delta) % M32 := by
      rw [mod_M32_add_left]
      have : s + delta + (r + 1) * delta = s + (r + 1 + 1) * delta := by ring
      rw [this]
    rw [harith,
      show loopE k n (r + 1) s v
        = loopE k n r ((s + delta) % M32) (roundE k n ((s + delta) % M32) v) from rfl]

/-- The decryption round loop undoes the encryption round loop: after `r`
rounds starting from `s`, the decryption loop starts at `(s + r*delta) % M32`
and walks the round sums back down. -/
theorem loopD_loopE (k : TeaKey) {n : Nat} (hn : 2 ≤ n) :
    ∀ (r s : Nat) {v : List Nat}, v.length = n → (∀ x ∈ v, x < M32) →
      loopD k n r ((s + r * delta) % M32) (loopE k n r s v) = v := by
  intro r
  induction r with
  | zero => intro s v _ _; rfl
  | succ r ih =>
    intro s v hlen hv
    rw [loopE_snoc, loopD,
      roundD_roundE k _ hn (by rw [length_loopE, hlen]) (valid_loopE k n r s hv),
      mod_M32_add_left,
      show s + (r + 1) * delta + (M32 - delta) = s + r * delta + M32 by
        unfold delta M32; omega,
      Nat.add_mod_right]
    exact ih s hlen hv

/-!
### Bridge: the transcribed source loops equal the cyclic form
-/

/-- The inner encryption loop, under the threading invariant
`z = v[(p + n - 1) % n]`, is the ascending cyclic run; the final `p` is
`p + cnt` and the final `z` is the entry last written. -/
theorem encInner_eq (k : TeaKey) {n : Nat} (sum e : Nat) :
    ∀ (cnt p : Nat) {v : List Nat} {z : Nat}, v.length = n → p + cnt + 1 ≤ n →
      z = v.getD ((p + n - 1) % n) 0 →
      encInner k sum e cnt p v z =
        ((runE k n sum e cnt p v,
          (runE k n sum e cnt p v).getD ((p + cnt + n - 1) % n) 0), p + cnt) := by
  intro cnt
  induction cnt with
  | zero =>
    intro p v z hlen hpn hz
    simpa [encInner, runE] using hz
  | succ cnt ih =>
    intro p v z hlen hpn hz
    have hp1 : p + 1 < n := by omega
    have hbody : encBody k sum e p v z = (stepE k n sum e p v, (stepE k n sum e p v).getD p 0) := by
      unfold encBody stepE mixAt
      rw [Nat.mod_eq_of_lt hp1, ← hz, getD_set_self (by omega) _]
    rw [show encInner k sum e (cnt + 1) p v z
        = encInner k sum e cnt (p + 1) (encBody k sum e p v z).1 (encBody k sum e p v z).2
        from rfl, hbody]
    have hz1 : (stepE k n sum e p v).getD p 0
        = (stepE k n sum e p v).getD ((p + 1 + n - 1) % n) 0 := by
      rw [show p + 1 + n - 1 = n + p by omega, Nat.add_mod_left, Nat.mod_eq_of_lt (by omega)]
    rw [hz1] at *
    rw [ih (p + 1) (by rw [length_stepE, hlen]) (by omega) rfl]
    rw [show runE k n sum e (cnt + 1) p v = runE k n sum e cnt (p + 1) (stepE k n sum e p v)
      from rfl]
    have harith : p + 1 + cnt = p + (cnt + 1) := by omega
    rw [harith]

/-- The transcribed encryption round equals the cyclic round, with the
returned `z` equal to the final last entry. -/
theorem encRound_eq (k : TeaKey) {n : Nat} (sum : Nat) (hn : 2 ≤ n) {v : List Nat} {z : Nat}
    (hlen : v.length = n) (hz : z = v.getD (n - 1) 0) :
    encRound k n sum v z = (roundE k n sum v, (roundE k n sum v).getD (n - 1) 0) := by
  subst hz
  have hinner := encInner_eq k sum ((sum >>> 2) &&& 3) (n - 1) 0 hlen (by omega)
    (show v.getD (n - 1) 0 = v.getD ((0 + n - 1) % n) 0 by
      rw [show 0 + n - 1 = n - 1 by omega, Nat.mod_eq_of_lt (by omega)])
  have hz1 : (0 + (n - 1) + n - 1) % n = n - 2 := by
    rw [show 0 + (n - 1) + n - 1 = n + (n - 2) by omega, Nat.add_mod_left,
      Nat.mod_eq_of_lt (by omega)]
  rw [hz1] at hinner
  have hsnoc := runE_snoc k n sum ((sum >>> 2) &&& 3) (n - 1) 0 v
  rw [show n - 1 + 1 = n by omega, Nat.zero_add] at hsnoc
  simp only [encRound, roundE, hinner, Nat.zero_add]
  rw [hsnoc]
  unfold stepE mixAt
  rw [show (n - 1 + 1) % n = 0 by rw [show n - 1 + 1 = n by omega, Nat.mod_self],
    show (n - 1 + n - 1) % n = n - 2 by
      rw [show n - 1 + n - 1 = n + (n - 2) by omega, Nat.add_mod_left,
        Nat.mod_eq_of_lt (by omega)]]
  rw [getD_set_self (by rw [length_runE]; omega) _]

/-- The transcribed encryption round loop equals the cyclic loop, with the
threaded `z` equal to the current last entry throughout. -/
theorem encLoop_eq (k : TeaKey) {n : Nat} (hn : 2 ≤ n) :
    ∀ (r s : Nat) {v : List Nat} {z : Nat}, v.length = n → z = v.getD (n - 1) 0 →
      encLoop k n r s v z = (loopE k n r s v, (loopE k n r s v).getD (n - 1) 0) := by
  intro r
  induction r with
  | zero =>
    intro s v z hlen hz
    simpa [encLoop, loopE] using hz
  | succ r ih =>
    intro s v z hlen hz
    rw [show encLoop k n (r + 1) s v z
        = encLoop k n r ((s + delta) % M32) (encRound k n ((s + delta) % M32) v z).1
            (encRound k n ((s + delta) % M32) v z).2 from rfl,
      encRound_eq k _ hn hlen hz]
    exact ih _ (by rw [length_roundE, hlen]) rfl

/-- `encryptWords` equals the cyclic encryption loop. -/
theorem encryptWords_eq (k : TeaKey) {n : Nat} (hn : 2 ≤ n) {v : List Nat}
    (hlen : v.length = n) :
    encryptWords k n v = loopE k n (6 + 52 / n) 0 v := by
  show (encLoop k n (6 + 52 / n) 0 v (v.getD (n - 1) 0)).1 = loopE k n (6 + 52 / n) 0 v
  rw [encLoop_eq k hn _ _ hlen rfl]

/-- The inner decryption loop, under the threading invariant
`y = v[(p + 1) % n]`, is the descending cyclic run; the final `p` is
`p - cnt` and the final `y` is the entry last written. -/
theorem decInner_eq (k : TeaKey) {n : Nat} (sum e : Nat) :
    ∀ (cnt p : Nat) {v : List Nat} {y : Nat}, v.length = n → cnt ≤ p → p < n →
      y = v.getD ((p + 1) % n) 0 →
      decInner k sum e cnt p v y =
        ((runD k n sum e cnt p v,
          (runD k n sum e cnt p v).getD ((p + 1 - cnt) % n) 0), p - cnt) := by
  intro cnt
  induction cnt with
  | zero =>
    intro p v y hlen hcp hpn hy
    simpa [decInner, runD] using hy
  | succ cnt ih =>
    intro p v y hlen hcp hpn hy
    have hp1 : 1 ≤ p := by omega
    have hbody : decBody k sum e p v y = (stepD k n sum e p v, (stepD k n sum e p v).getD p 0) := by
      unfold decBody stepD mixAt
      rw [show p + n - 1 = n + (p - 1) by omega, Nat.add_mod_left,
        Nat.mod_eq_of_lt (by omega : p - 1 < n), ← hy, getD_set_self (by omega) _]
    rw [show decInner k sum e (cnt + 1) p v y
        = decInner k sum e cnt (p - 1) (decBody k sum e p v y).1 (decBody k sum e p v y).2
        from rfl, hbody]
    have hy1 : (stepD k n sum e p v).getD p 0
        = (stepD k n sum e p v).getD ((p - 1 + 1) % n) 0 := by
      rw [show p - 1 + 1 = p by omega, Nat.mod_eq_of_lt hpn]
    rw [hy1] at *
    rw [ih (p - 1) (by rw [length_stepD, hlen]) (by omega) (by omega) rfl]
    rw [show runD k n sum e (cnt + 1) p v = runD k n sum e cnt (p - 1) (stepD k n sum e p v)
      from rfl]
    rw [show p - 1 + 1 - cnt = p + 1 - (cnt + 1) by omega,
      show p - 1 - cnt = p - (cnt + 1) by omega]

/-- The transcribed decryption round equals the cyclic round, with the
returned `y` equal to the final first entry. -/
theorem decRound_eq (k : TeaKey) {n : Nat} (sum : Nat) (hn : 2 ≤ n) {v : List Nat} {y : Nat}
    (hlen : v.length = n) (hy : y = v.getD 0 0) :
    decRound k n sum v y = (roundD k n sum v, (roundD k n sum v).getD 0 0) := by
  subst hy
  have hinner := decInner_eq k sum ((sum >>> 2) &&& 3) (n - 1) (n - 1) hlen (le_refl _)
    (by omega)
    (show v.getD 0 0 = v.getD ((n - 1 + 1) % n) 0 by
      rw [show n - 1 + 1 = n by omega, Nat.mod_self])
  have hy1 : (n - 1 + 1 - (n - 1)) % n = 1 := by
    rw [show n - 1 + 1 - (n - 1) = 1 by omega, Nat.mod_eq_of_lt (by omega)]
  rw [hy1, Nat.sub_self] at hinner
  have hsnoc := runD_snoc k n sum ((sum >>> 2) &&& 3) (n - 1) (n - 1) v
  rw [show n - 1 + 1 = n by omega, Nat.sub_self] at hsnoc
  simp only [decRound, roundD, hinner]
  rw [hsnoc]
  unfold stepD mixAt
  rw [show (0 + 1) % n = 1 by rw [Nat.zero_add, Nat.mod_eq_of_lt (by omega)],
    show (0 + n - 1) % n = n - 1 by
      rw [show 0 + n - 1 = n - 1 by omega, Nat.mod_eq_of_lt (by omega)]]
  rw [getD_set_self (by rw [length_runD]; omega) _]

/-- The transcribed decryption round loop equals the cyclic loop, with the
threaded `y` equal to the current first entry throughout. -/
theorem decLoop_eq (k : TeaKey) {n : Nat} (hn : 2 ≤ n) :
    ∀ (r s : Nat) {v : List Nat} {y : Nat}, v.length = n → y = v.getD 0 0 →
      decLoop k n r s v y = (loopD k n r s v, (loopD k n r s v).getD 0 0) := by
  intro r
  induction r with
  | zero =>
    intro s v y hlen hy
    simpa [decLoop, loopD] using hy
  | succ r ih =>
    intro s v y hlen hy
    rw [show decLoop k n (r + 1) s v y
        = decLoop k n r ((s + (M32 - delta)) % M32) (decRound k n s v y).1
            (decRound k n s v y).2 from rfl,
      decRound_eq k s hn hlen hy]
    exact ih _ (by rw [length_roundD, hlen]) rfl

/-- `decryptWords` equals the cyclic decryption loop. -/
theorem decryptWords_eq (k : TeaKey) {n : Nat} (hn : 2 ≤ n) {v : List Nat}
    (hlen : v.length = n) :
    decryptWords k n v = loopD k n (6 + 52 / n) (((6 + 52 / n) * delta) % M32) v := by
  show (decLoop k n (6 + 52 / n) (((6 + 52 / n) * delta) % M32) v (v.getD 0 0)).1
      = loopD k n (6 + 52 / n) (((6 + 52 / n) * delta) % M32) v
  rw [decLoop_eq k hn _ _ hlen rfl]

/-- Word-level round trip: for a vector of at least two words, each `< 2^32`,
`decryptWords` inverts `encryptWords`. -/
theorem decryptWords_encryptWords (k : TeaKey) {n : Nat} (hn : 2 ≤ n) {v : List Nat}
    (hlen : v.length = n) (hv : ∀ x ∈ v, x < M32) :
    decryptWords k n (encryptWords k n v) = v := by
  rw [encryptWords_eq k hn hlen,
    decryptWords_eq k hn (by rw [length_loopE, hlen])]
  have := loopD_loopE k hn (6 + 52 / n) 0 hlen hv
  simpa using this

/-! ### Byte-level facts about `Encrypt` and `Decrypt` -/

theorem lenBad_iff_of_lt {lin lout : Nat} (hin : lin < M32) (hout : lout < M32) :
    lenBad lin lout ↔ (lin < 12 ∨ 208 < lin ∨ lin % 4 ≠ 0 ∨ lin ≠ lout) := by
  unfold lenBad
  rw [Nat.mod_eq_of_lt hin, Nat.mod_eq_of_lt hout]

theorem M32_big : 208 < M32 := by norm_num [M32]

theorem not_lenBad {L : Nat} (h12 : 12 ≤ L) (h208 : L ≤ 208) (h4 : L % 4 = 0) :
    ¬ lenBad L L := by
  rw [lenBad_iff_of_lt (by have := M32_big; omega) (by have := M32_big; omega)]
  omega

/-- With equal valid lengths, `Encrypt` succeeds and produces exactly the
serialized word transform of the input. -/
theorem Encrypt_ok (k : TeaKey) {m out : List Nat} {L : Nat} (hm : m.length = L)
    (hout : out.length = L) (h12 : 12 ≤ L) (h208 : L ≤ 208) (h4 : L % 4 = 0) :
    TeaKey.Encrypt k m out = .ok (storeWords (encryptWords k (L / 4) (loadWords m))) := by
  have hL32 : L < M32 := by have := M32_big; omega
  have hmod : m.length % M32 = L := by rw [hm, Nat.mod_eq_of_lt hL32]
  unfold TeaKey.Encrypt
  rw [if_neg (by rw [hm, hout]; exact not_lenBad h12 h208 h4)]
  rw [hmod]
  show Except.ok (storeWords (encryptWords k (L / 4) (loadWords (m.take L))) ++ out.drop L)
      = Except.ok (storeWords (encryptWords k (L / 4) (loadWords m)))
  rw [show m.take L = m by rw [← hm, List.take_length],
    show out.drop L = [] by rw [← hout, List.drop_length], List.append_nil]

/-- With equal valid lengths, `Decrypt` succeeds and produces exactly the
serialized inverse word transform of the input. -/
theorem Decrypt_ok (k : TeaKey) {m out : List Nat} {L : Nat} (hm : m.length = L)
    (hout : out.length = L) (h12 : 12 ≤ L) (h208 : L ≤ 208) (h4 : L % 4 = 0) :
    TeaKey.Decrypt k m out = .ok (storeWords (decryptWords k (L / 4) (loadWords m))) := by
  have hL32 : L < M32 := by have := M32_big; omega
  have hmod : m.length % M32 = L := by rw [hm, Nat.mod_eq_of_lt hL32]
  unfold TeaKey.Decrypt
  rw [if_neg (by rw [hm, hout]; exact not_lenBad h12 h208 h4)]
  rw [hmod]
  show Except.ok (storeWords (decryptWords k (L / 4) (loadWords (m.take L))) ++ out.drop L)
      = Except.ok (storeWords (decryptWords k (L / 4) (loadWords m)))
  rw [show m.take L = m by rw [← hm, List.take_length],
    show out.drop L = [] by rw [← hout, List.drop_length], List.append_nil]

theorem length_encryptWords (k : TeaKey) {n : Nat} (hn : 2 ≤ n) {v : List Nat}
    (hlen : v.length = n) : (encryptWords k n v).length = n := by
  rw [encryptWords_eq k hn hlen, length_loopE, hlen]

theorem valid_encryptWords (k : TeaKey) {n : Nat} (hn : 2 ≤ n) {v : List Nat}
    (hlen : v.length = n) (hv : ∀ x ∈ v, x < M32) :
    ∀ x ∈ encryptWords k n v, x < M32 := by
  rw [encryptWords_eq k hn hlen]
  exact valid_loopE k n _ _ hv

/-- Helper: the serialized encryption of a valid message has the message's
length, and decrypting it into any correctly sized output buffer returns the
message. -/
theorem Decrypt_of_Encrypt (k : TeaKey) {m : List Nat} {L : Nat} (hm : m.length = L)
    (h12 : 12 ≤ L) (h208 : L ≤ 208) (h4 : L % 4 = 0) (hbytes : ∀ x ∈ m, x < 256) :
    (storeWords (encryptWords k (L / 4) (loadWords m))).length = L ∧
      ∀ out2 : List Nat, out2.length = L →
        TeaKey.Decrypt k (storeWords (encryptWords k (L / 4) (loadWords m))) out2 = .ok m := by
  have hq : m.length = 4 * (L / 4) := by omega
  have hn : 2 ≤ L / 4 := by omega
  have hlenv : (loadWords m).length = L / 4 := by
    rw [length_loadWords (L / 4) m hq, hm]
  have hvv : ∀ x ∈ loadWords m, x < M32 := loadWords_lt (L / 4) m hq hbytes
  have hw : (encryptWords k (L / 4) (loadWords m)).length = L / 4 :=
    length_encryptWords k hn hlenv
  have hwv : ∀ x ∈ encryptWords k (L / 4) (loadWords m), x < M32 :=
    valid_encryptWords k hn hlenv hvv
  have hc : (storeWords (encryptWords k (L / 4) (loadWords m))).length = L := by
    rw [length_storeWords, hw]; omega
  refine ⟨hc, fun out2 hout2 => ?_⟩
  rw [Decrypt_ok k hc hout2 h12 h208 h4, loadWords_storeWords _ hwv,
    decryptWords_encryptWords k hn hlenv hvv, storeWords_loadWords (L / 4) m hq hbytes]

/-!
### The encryption algorithm as worded by the specification (section 4.4)

The following `spec*` definitions are transcribed from the specification's
words, not from the source, to compare the two (claim C2):
`MX(y, z, sum, keyword) = ((z >> 5) XOR (y << 2)) + ((y >> 3) XOR (z << 4))
XOR ((sum XOR y) + (keyword XOR z))`, all arithmetic unsigned 32-bit with
wraparound; `rounds = 6 + 52/N`, `sum = 0`, `z = v[N-1]`; each round does
`sum += DELTA`, `e = (sum >> 2) & 3`, then for `p` from `0` to `N-2`:
`y = v[p+1]; v[p] += MX(y, z, sum, key[(p & 3) ^ e]); z = v[p]`, then
`y = v[0]; v[N-1] += MX(y, z, sum, key[((N-1) & 3) ^ e]); z = v[N-1]`. -/

/-- Spec section 4.3: the `MX` mixing function. -/
def specMX (y z sum keyword : Nat) : Nat :=
  ((((z >>> 5) ^^^ ((y <<< 2) % M32)) + ((y >>> 3) ^^^ ((z <<< 4) % M32))) % M32) ^^^
    (((sum ^^^ y) + (keyword ^^^ z)) % M32)

/-- Spec section 4.4 step 2c, iterated for `p` from `0` to `N-2`. -/
def specStepC (k : TeaKey) (sum e : Nat) : Nat → Nat → List Nat → Nat → List Nat × Nat
  | 0, _, v, z => (v, z)
  | cnt + 1, p, v, z =>
    let y := v.getD (p + 1) 0
    let w := (v.getD p 0 + specMX y z sum (keyAt k ((p &&& 3) ^^^ e))) % M32
    specStepC k sum e cnt (p + 1) (v.set p w) w

/-- Spec section 4.4 steps 2a-2d: one round. -/
def specRound (k : TeaKey) (N sum : Nat) (v : List Nat) (z : Nat) : List Nat × Nat :=
  let e := (sum >>> 2) &&& 3
  let r := specStepC k sum e (N - 1) 0 v z
  let y := r.1.getD 0 0
  let w := (r.1.getD (N - 1) 0 + specMX y r.2 sum (keyAt k (((N - 1) &&& 3) ^^^ e))) % M32
  (r.1.set (N - 1) w, w)

/-- Spec section 4.4 step 2: the rounds, `sum` increasing by `DELTA` each. -/
def specRounds (k : TeaKey) (N : Nat) : Nat → Nat → List Nat → Nat → List Nat × Nat
  | 0, _, v, z => (v, z)
  | r + 1, sum, v, z =>
    let s := (sum + delta) % M32
    let vz := specRound k N s v z
    specRounds k N r s vz.1 vz.2

/-- Spec section 4.4: the whole word-level algorithm on `N = L/4` words. -/
def specEncryptWords (k : TeaKey) (v : List Nat) : List Nat :=
  let N := v.length
  let rounds := 6 + 52 / N
  (specRounds k N rounds 0 v (v.getD (N - 1) 0)).1

theorem specMX_eq_mx : specMX = mx := rfl

theorem encInner_specStepC (k : TeaKey) (sum e : Nat) :
    ∀ (cnt p : Nat) (v : List Nat) (z : Nat),
      encInner k sum e cnt p v z = (specStepC k sum e cnt p v z, p + cnt) := by
  intro cnt
  induction cnt with
  | zero => intro p v z; rfl
  | succ cnt ih =>
    intro p v z
    rw [show encInner k sum e (cnt + 1) p v z
        = encInner k sum e cnt (p + 1) (encBody k sum e p v z).1 (encBody k sum e p v z).2
        from rfl, ih,
      show specStepC k sum e (cnt + 1) p v z
        = specStepC k sum e cnt (p + 1) (encBody k sum e p v z).1 (encBody k sum e p v z).2
        from rfl]
    rw [show p + 1 + cnt = p + (cnt + 1) by omega]

theorem encRound_specRound (k : TeaKey) (n sum : Nat) (v : List Nat) (z : Nat) :
    encRound k n sum v z = specRound k n sum v z := by
  simp only [encRound, specRound, encInner_specStepC, Nat.zero_add, specMX_eq_mx]

theorem encLoop_specRounds (k : TeaKey) (n : Nat) :
    ∀ (r sum : Nat) (v : List Nat) (z : Nat),
      encLoop k n r sum v z = specRounds k n r sum v z := by
  intro r
  induction r with
  | zero => intro sum v z; rfl
  | succ r ih =>
    intro sum v z
    simp only [encLoop, specRounds, encRound_specRound, ih]

/-- The transcribed source encryption equals the specification's worded
algorithm. -/
theorem encryptWords_specEncryptWords (k : TeaKey) {n : Nat} {v : List Nat}
    (hlen : v.length = n) : encryptWords k n v = specEncryptWords k v := by
  subst hlen
  show (encLoop k v.length (6 + 52 / v.length) 0 v (v.getD (v.length - 1) 0)).1
      = (specRounds k v.length (6 + 52 / v.length) 0 v (v.getD (v.length - 1) 0)).1
  rw [encLoop_specRounds]

/-! ### Pointwise characterization of the endian transforms -/

theorem getElem?_eq_getD {d : List Nat} {j : Nat} (h : j < d.length) :
    d[j]? = some (d.getD j 0) := by
  rw [List.getD_eq_getElem?_getD, List.getElem?_eq_getElem h]
  rfl

theorem length_swapLELE (i l : Nat) (d : List Nat) : (swapLELE i l d).length = d.length := by
  unfold swapLELE
  rw [List.length_set, List.length_set]

theorem length_asLELEgo :
    ∀ (fuel i l : Nat) (d : List Nat), (asLELEgo fuel i l d).length = d.length := by
  intro fuel
  induction fuel with
  | zero => intro i l d; rfl
  | succ fuel ih =>
    intro i l d
    unfold asLELEgo
    split
    · rw [ih, length_swapLELE]
    · rfl

/-- The two-pointer swap loop of `AsLELE` reverses the segment `[i, l]` and
fixes everything else. -/
theorem asLELEgo_getElem :
    ∀ (fuel i l : Nat) (d : List Nat), i ≤ l + 1 → l < d.length → l + 1 - i ≤ fuel →
      ∀ x, (asLELEgo fuel i l d)[x]? =
        if i ≤ x ∧ x ≤ l then d[i + l - x]? else d[x]? := by
  intro fuel
  induction fuel with
  | zero =>
    intro i l d hil hl hfuel x
    have hi : i = l + 1 := by omega
    rw [ite_of_neg (by omega)]
    rfl
  | succ fuel ih =>
    intro i l d hil hl hfuel x
    unfold asLELEgo
    by_cases hlt : i < l
    · rw [if_pos hlt]
      have hlen : l - 1 < (swapLELE i l d).length := by rw [length_swapLELE]; omega
      rw [ih (i + 1) (l - 1) (swapLELE i l d) (by omega) hlen (by omega) x]
      have hset : ∀ j, j ≠ i → j ≠ l → (swapLELE i l d)[j]? = d[j]? := by
        intro j hj1 hj2
        unfold swapLELE
        rw [List.getElem?_set_ne (by omega), List.getElem?_set_ne (by omega)]
      have hseti : (swapLELE i l d)[i]? = d[l]? := by
        unfold swapLELE
        rw [List.getElem?_set_ne (by omega), List.getElem?_set_self' ,
          List.getElem?_eq_getElem (by omega : i < d.length), getElem?_eq_getD hl]
        rfl
      have hsetl : (swapLELE i l d)[l]? = d[i]? := by
        unfold swapLELE
        rw [List.getElem?_set_self' , List.getElem?_set_ne (by omega : i ≠ l),
          getElem?_eq_getD hl, getElem?_eq_getD (by omega : i < d.length)]
        rfl
      by_cases hx1 : i + 1 ≤ x ∧ x ≤ l - 1
      · rw [if_pos hx1, ite_of_pos (by omega)]
        rw [show i + 1 + (l - 1) - x = i + l - x by omega]
        exact hset _ (by omega) (by omega)
      · rw [if_neg hx1]
        by_cases hxi : x = i
        · subst hxi
          rw [hseti, ite_of_pos (by omega), show x + l - x = l by omega]
        · by_cases hxl : x = l
          · subst hxl
            rw [hsetl, ite_of_pos (by omega), show i + x - x = i by omega]
          · rw [hset x hxi hxl, ite_of_neg (by omega)]
    · rw [if_neg hlt]
      rcases (by omega : i = l ∨ i = l + 1) with hi | hi
      · subst hi
        by_cases hx : i ≤ x ∧ x ≤ i
        · rw [if_pos hx, show i + i - x = x by omega]
        · rw [ite_of_neg (by omega)]
      · rw [ite_of_neg (by omega)]

theorem length_swapBELE (i l : Nat) (d : List Nat) : (swapBELE i l d).length = d.length := by
  simp only [swapBELE, List.length_set]

theorem length_asBELEgo :
    ∀ (fuel i l : Nat) (d : List Nat), (asBELEgo fuel i l d).length = d.length := by
  intro fuel
  induction fuel with
  | zero => intro i l d; rfl
  | succ fuel ih =>
    intro i l d
    unfold asBELEgo
    split
    · rw [ih, length_swapBELE]
    · rfl

theorem asBELEgo_stop (fuel i l : Nat) (d : List Nat) (h : ¬ i < l) :
    asBELEgo fuel i l d = d := by
  cases fuel with
  | zero => rfl
  | succ fuel => exact if_neg h

/-- Hypothesis-free description of `List.set` through `getD`. -/
theorem getD_set_if (d : List Nat) (i j a : Nat) :
    (d.set i a).getD j 0 = if i = j ∧ i < d.length then a else d.getD j 0 := by
  by_cases hij : i = j
  · subst hij
    by_cases hi : i < d.length
    · rw [if_pos ⟨rfl, hi⟩, getD_set_self hi]
    · rw [if_neg (by tauto), List.set_eq_of_length_le (by omega)]
  · rw [if_neg (by tauto), getD_set_ne hij]

/-- Two lists are equal once they have equal lengths and equal entries. -/
theorem ext_getD {l1 l2 : List Nat} (hlen : l1.length = l2.length)
    (h : ∀ j, j < l1.length → l1.getD j 0 = l2.getD j 0) : l1 = l2 := by
  refine List.ext_getElem? fun j => ?_
  by_cases hj : j < l1.length
  · rw [getElem?_eq_getD hj, getElem?_eq_getD (by omega), h j hj]
  · rw [List.getElem?_eq_none (by omega : l1.length ≤ j),
      List.getElem?_eq_none (by omega : l2.length ≤ j)]

/-- What the simultaneous chunk exchange of `AsBELE` does to each index;
valid also when the two chunks coincide (`l = i + 3`). -/
theorem swapBELE_getD {i l : Nat} {d : List Nat} (h3 : i + 3 ≤ l) (hl : l < d.length)
    (h4 : 4 ∣ l + 1 - i) :
    ∀ j, (swapBELE i l d).getD j 0 =
      if j = l - 3 then d.getD i 0 else if j = l - 2 then d.getD (i + 1) 0 else
      if j = l - 1 then d.getD (i + 2) 0 else if j = l then d.getD (i + 3) 0 else
      if j = i then d.getD (l - 3) 0 else if j = i + 1 then d.getD (l - 2) 0 else
      if j = i + 2 then d.getD (l - 1) 0 else if j = i + 3 then d.getD l 0 else
      d.getD j 0 := by
  intro j
  simp only [swapBELE, getD_set_if, List.length_set]
  by_cases hj1 : j = l - 3
  · conv_rhs => rw [if_pos hj1]
    rw [ite_of_neg (by omega), ite_of_neg (by omega), ite_of_neg (by omega), ite_of_pos (by omega)]
  · by_cases hj2 : j = l - 2
    · conv_rhs => rw [if_neg hj1, if_pos hj2]
      rw [ite_of_neg (by omega), ite_of_neg (by omega), ite_of_pos (by omega)]
    · by_cases hj3 : j = l - 1
      · conv_rhs => rw [if_neg hj1, if_neg hj2, if_pos hj3]
        rw [ite_of_neg (by omega), ite_of_pos (by omega)]
      · by_cases hj4 : j = l
        · conv_rhs => rw [if_neg hj1, if_neg hj2, if_neg hj3, if_pos hj4]
          rw [ite_of_pos (by omega)]
        · by_cases hj5 : j = i
          · conv_rhs => rw [if_neg hj1, if_neg hj2, if_neg hj3, if_neg hj4, if_pos hj5]
            rw [ite_of_neg (by omega), ite_of_neg (by omega), ite_of_neg (by omega), ite_of_neg (by omega),
              ite_of_neg (by omega), ite_of_neg (by omega), ite_of_neg (by omega), ite_of_pos (by omega)]
          · by_cases hj6 : j = i + 1
            · conv_rhs => rw [if_neg hj1, if_neg hj2, if_neg hj3, if_neg hj4, if_neg hj5,
                if_pos hj6]
              rw [ite_of_neg (by omega), ite_of_neg (by omega), ite_of_neg (by omega), ite_of_neg (by omega),
                ite_of_neg (by omega), ite_of_neg (by omega), ite_of_pos (by omega)]
            · by_cases hj7 : j = i + 2
              · conv_rhs => rw [if_neg hj1, if_neg hj2, if_neg hj3, if_neg hj4, if_neg hj5,
                  if_neg hj6, if_pos hj7]
                rw [ite_of_neg (by omega), ite_of_neg (by omega), ite_of_neg (by omega), ite_of_neg (by omega),
                  ite_of_neg (by omega), ite_of_pos (by omega)]
              · by_cases hj8 : j = i + 3
                · conv_rhs => rw [if_neg hj1, if_neg hj2, if_neg hj3, if_neg hj4, if_neg hj5,
                    if_neg hj6, if_neg hj7, if_pos hj8]
                  rw [ite_of_neg (by omega), ite_of_neg (by omega), ite_of_neg (by omega), ite_of_neg (by omega),
                    ite_of_pos (by omega)]
                · conv_rhs => rw [if_neg hj1, if_neg hj2, if_neg hj3, if_neg hj4, if_neg hj5,
                    if_neg hj6, if_neg hj7, if_neg hj8]
                  rw [ite_of_neg (by omega), ite_of_neg (by omega), ite_of_neg (by omega), ite_of_neg (by omega),
                    ite_of_neg (by omega), ite_of_neg (by omega), ite_of_neg (by omega), ite_of_neg (by omega)]

theorem getD_congr (d : List Nat) {a b : Nat} (h : a = b) : d.getD a 0 = d.getD b 0 := by
  rw [h]

set_option maxHeartbeats 1000000 in
/-- The chunk-swapping loop of `AsBELE` reverses the order of the 4-byte
chunks of the segment `[i, l]`, keeping bytes inside each chunk in place. -/
theorem asBELEgo_getD :
    ∀ (fuel i l : Nat) (d : List Nat), 4 ∣ (l + 1 - i) → i ≤ l + 1 → l < d.length →
      l + 1 - i ≤ fuel → ∀ x, x < d.length →
      (asBELEgo fuel i l d).getD x 0 =
        if i ≤ x ∧ x ≤ l then d.getD (l - 3 - 4 * ((x - i) / 4) + (x - i) % 4) 0
        else d.getD x 0 := by
  intro fuel
  induction fuel with
  | zero =>
    intro i l d h4 hil hl hfuel x hx
    rw [ite_of_neg (by omega)]
    rfl
  | succ fuel ih =>
    intro i l d h4 hil hl hfuel x hx
    unfold asBELEgo
    by_cases hlt : i < l
    · rw [if_pos hlt]
      have h3 : i + 3 ≤ l := by omega
      by_cases hA : l = i + 3
      · rw [asBELEgo_stop fuel (i + 4) (l - 4) _ (by omega)]
        rw [swapBELE_getD h3 hl h4 x]
        split_ifs <;> first
          | exact getD_congr d (by omega)
          | omega
      · have hB : i + 7 ≤ l := by omega
        rw [ih (i + 4) (l - 4) (swapBELE i l d) (by omega) (by omega)
          (by rw [length_swapBELE]; omega) (by omega) x (by rw [length_swapBELE]; omega)]
        by_cases hmid : i + 4 ≤ x ∧ x ≤ l - 4
        · rw [if_pos hmid, ite_of_pos (by omega),
            swapBELE_getD h3 hl h4 (l - 4 - 3 - 4 * ((x - (i + 4)) / 4) + (x - (i + 4)) % 4),
            ite_of_neg (by omega), ite_of_neg (by omega), ite_of_neg (by omega), ite_of_neg (by omega),
            ite_of_neg (by omega), ite_of_neg (by omega), ite_of_neg (by omega), ite_of_neg (by omega)]
          exact getD_congr d (by omega)
        · rw [if_neg hmid, swapBELE_getD h3 hl h4 x]
          split_ifs <;> first
            | exact getD_congr d (by omega)
            | omega
    · rw [if_neg hlt, ite_of_neg (by omega)]

/-- `AsBELE` on a valid-length buffer: success, with the chunk order
reversed. -/
theorem AsBELE_ok {d : List Nat} (hlen : 4 ≤ d.length) (hdvd : d.length % 4 = 0) :
    ∃ r, AsBELE d = .ok r ∧ r.length = d.length ∧ ∀ x, x < d.length →
      r.getD x 0 = d.getD (d.length - 4 - 4 * (x / 4) + x % 4) 0 := by
  refine ⟨asBELEgo d.length 0 (d.length - 1) d, ?_, length_asBELEgo .., ?_⟩
  · unfold AsBELE chk4len
    rw [ite_of_neg (by omega)]
  · intro x hx
    rw [asBELEgo_getD d.length 0 (d.length - 1) d (by omega) (by omega) (by omega)
      (by omega) x hx, ite_of_pos (by omega)]
    exact getD_congr d (by omega)

theorem length_swapLEBE (i : Nat) (d : List Nat) : (swapLEBE i d).length = d.length := by
  simp only [swapLEBE, List.length_set]

/-- What the in-chunk byte reversal of `AsLEBE` does to each index. -/
theorem swapLEBE_getD {i : Nat} {d : List Nat} (h3 : i + 3 < d.length) :
    ∀ j, (swapLEBE i d).getD j 0 =
      if j = i then d.getD (i + 3) 0 else if j = i + 1 then d.getD (i + 2) 0 else
      if j = i + 2 then d.getD (i + 1) 0 else if j = i + 3 then d.getD i 0 else
      d.getD j 0 := by
  intro j
  simp only [swapLEBE, getD_set_if, List.length_set]
  by_cases hj1 : j = i
  · conv_rhs => rw [if_pos hj1]
    rw [ite_of_neg (by omega), ite_of_neg (by omega), ite_of_neg (by omega), ite_of_pos (by omega)]
  · by_cases hj2 : j = i + 1
    · conv_rhs => rw [if_neg hj1, if_pos hj2]
      rw [ite_of_neg (by omega), ite_of_neg (by omega), ite_of_pos (by omega)]
    · by_cases hj3 : j = i + 2
      · conv_rhs => rw [if_neg hj1, if_neg hj2, if_pos hj3]
        rw [ite_of_neg (by omega), ite_of_pos (by omega)]
      · by_cases hj4 : j = i + 3
        · conv_rhs => rw [if_neg hj1, if_neg hj2, if_neg hj3, if_pos hj4]
          rw [ite_of_pos (by omega)]
        · conv_rhs => rw [if_neg hj1, if_neg hj2, if_neg hj3, if_neg hj4]
          rw [ite_of_neg (by omega), ite_of_neg (by omega), ite_of_neg (by omega), ite_of_neg (by omega)]

set_option maxHeartbeats 1000000 in
/-- The loop of `AsLEBE`, entered at a 4-aligned `i` on a buffer whose
length check succeeds, returns successfully with every 4-byte chunk from
position `i` on reversed in place and everything below `i` untouched. -/
theorem asLEBEgo_getD :
    ∀ (fuel i : Nat) (d : List Nat) (l : Nat), chk4len d.length = some l → i % 4 = 0 →
      d.length + 1 - i ≤ fuel →
      ∃ r, asLEBEgo fuel i d = .ok r ∧ r.length = d.length ∧ ∀ x, x < d.length →
        r.getD x 0 = if x < i then d.getD x 0 else d.getD (4 * (x / 4) + 3 - x % 4) 0 := by
  intro fuel
  induction fuel with
  | zero =>
    intro i d l hchk hi hfuel
    refine ⟨d, rfl, rfl, ?_⟩
    intro x hx
    rw [ite_of_pos (by omega)]
  | succ fuel ih =>
    intro i d l hchk hi hfuel
    have hlen : 4 ≤ d.length ∧ d.length % 4 = 0 ∧ l = d.length - 1 := by
      unfold chk4len at hchk
      by_cases hc : d.length < 4 ∨ d.length % 4 ≠ 0
      · rw [if_pos hc] at hchk; exact absurd hchk (by simp)
      · rw [if_neg hc] at hchk
        refine ⟨by omega, by omega, by injection hchk with h; omega⟩
    have hstep : asLEBEgo (fuel + 1) i d
        = if i < l then asLEBEgo fuel (i + 4) (swapLEBE i d) else .ok d := by
      conv_lhs => unfold asLEBEgo
      rw [hchk]
    rw [hstep]
    by_cases hil : i < l
    · rw [if_pos hil]
      have h3 : i + 3 < d.length := by omega
      have hchk2 : chk4len (swapLEBE i d).length = some l := by
        rw [length_swapLEBE]; exact hchk
      obtain ⟨r, hok, hrlen, hval⟩ := ih (i + 4) (swapLEBE i d) l hchk2 (by omega)
        (by rw [length_swapLEBE]; omega)
      refine ⟨r, hok, by rw [hrlen, length_swapLEBE], ?_⟩
      intro x hx
      rw [hval x (by rw [length_swapLEBE]; omega)]
      by_cases hxlow : x < i
      · rw [ite_of_pos (by omega), if_pos hxlow, swapLEBE_getD h3 x]
        split_ifs <;> first
          | exact getD_congr d (by omega)
          | omega
      · by_cases hxchunk : x < i + 4
        · rw [if_pos hxchunk, ite_of_neg (by omega), swapLEBE_getD h3 x]
          split_ifs <;> first
            | exact getD_congr d (by omega)
            | omega
        · rw [if_neg hxchunk, ite_of_neg (by omega), swapLEBE_getD h3 (4 * (x / 4) + 3 - x % 4)]
          split_ifs <;> first
            | exact getD_congr d (by omega)
            | omega
    · rw [if_neg hil]
      refine ⟨d, rfl, rfl, ?_⟩
      intro x hx
      rw [ite_of_pos (by omega)]

/-- `AsLEBE` on a valid-length buffer: success, with each 4-byte chunk
reversed in place. -/
theorem AsLEBE_ok {d : List Nat} (hlen : 4 ≤ d.length) (hdvd : d.length % 4 = 0) :
    ∃ r, AsLEBE d = .ok r ∧ r.length = d.length ∧ ∀ x, x < d.length →
      r.getD x 0 = d.getD (4 * (x / 4) + 3 - x % 4) 0 := by
  have hchk : chk4len d.length = some (d.length - 1) := by
    unfold chk4len
    rw [ite_of_neg (by omega)]
  obtain ⟨r, hok, hrlen, hval⟩ := asLEBEgo_getD (d.length + 1) 0 d (d.length - 1) hchk
    (by omega) (by omega)
  refine ⟨r, hok, hrlen, ?_⟩
  intro x hx
  rw [hval x hx, ite_of_neg (by omega)]

/-- The `getD` form of the segment-reversal characterization of `AsLELE`. -/
theorem asLELEgo_getD (fuel i l : Nat) (d : List Nat) (hil : i ≤ l + 1) (hl : l < d.length)
    (hfuel : l + 1 - i ≤ fuel) (x : Nat) (hx : x < d.length) :
    (asLELEgo fuel i l d).getD x 0 =
      if i ≤ x ∧ x ≤ l then d.getD (i + l - x) 0 else d.getD x 0 := by
  have h := asLELEgo_getElem fuel i l d hil hl hfuel x
  rw [List.getD_eq_getElem?_getD, h]
  by_cases hcond : i ≤ x ∧ x ≤ l
  · rw [if_pos hcond, if_pos hcond, getElem?_eq_getD (by omega)]
    rfl
  · rw [if_neg hcond, if_neg hcond, getElem?_eq_getD hx]
    rfl

/-- `AsLELE` on a valid-length buffer: success, with the whole buffer
reversed. -/
theorem AsLELE_ok {d : List Nat} (hlen : 4 ≤ d.length) (hdvd : d.length % 4 = 0) :
    ∃ r, AsLELE d = .ok r ∧ r.length = d.length ∧ ∀ x, x < d.length →
      r.getD x 0 = d.getD (d.length - 1 - x) 0 := by
  refine ⟨asLELEgo d.length 0 (d.length - 1) d, ?_, length_asLELEgo .., ?_⟩
  · unfold AsLELE chk4len
    rw [ite_of_neg (by omega)]
  · intro x hx
    rw [asLELEgo_getD d.length 0 (d.length - 1) d (by omega) (by omega) (by omega) x hx,
      ite_of_pos (by omega)]
    exact getD_congr d (by omega)

/-! ### Failure paths -/

/-- When the (loop-condition) length check fails, the `AsLEBE` loop panics
at once, with the buffer in its current state. -/
theorem asLEBEgo_none {d : List Nat} (h : chk4len d.length = none) (fuel i : Nat) :
    asLEBEgo (fuel + 1) i d = .error (em, d) := by
  conv_lhs => unfold asLEBEgo
  rw [h]

theorem NewKey_cases (b : List Nat) :
    (NewKey b).isOk = true ∨ NewKey b = .error (em, b) := by
  unfold NewKey
  by_cases h1 : b.length ≠ 16
  · right; rw [if_pos h1]
  · rw [if_neg h1]
    by_cases h2 : word32 (b.getD 0 0) (b.getD 1 0) (b.getD 2 0) (b.getD 3 0) |||
        (word32 (b.getD 4 0) (b.getD 5 0) (b.getD 6 0) (b.getD 7 0) |||
          (word32 (b.getD 8 0) (b.getD 9 0) (b.getD 10 0) (b.getD 11 0) |||
            word32 (b.getD 12 0) (b.getD 13 0) (b.getD 14 0) (b.getD 15 0))) = 0
    · right
      simp only [h2, if_pos]
    · left
      rw [if_neg h2]
      rfl

theorem AsBELE_cases (d : List Nat) :
    (AsBELE d).isOk = true ∨ AsBELE d = .error (em, d) := by
  unfold AsBELE
  cases hchk : chk4len d.length with
  | none => right; rfl
  | some l => left; rfl

theorem AsLELE_cases (d : List Nat) :
    (AsLELE d).isOk = true ∨ AsLELE d = .error (em, d) := by
  unfold AsLELE
  cases hchk : chk4len d.length with
  | none => right; rfl
  | some l => left; rfl

theorem AsLEBE_cases (d : List Nat) :
    (AsLEBE d).isOk = true ∨ AsLEBE d = .error (em, d) := by
  cases hchk : chk4len d.length with
  | none =>
    right
    show asLEBEgo (d.length + 1) 0 d = .error (em, d)
    exact asLEBEgo_none hchk _ 0
  | some l =>
    left
    obtain ⟨r, hok, -, -⟩ := asLEBEgo_getD (d.length + 1) 0 d l hchk (by omega) (by omega)
    show (asLEBEgo (d.length + 1) 0 d).isOk = true
    rw [hok]
    rfl

theorem Encrypt_cases (k : TeaKey) (inp outp : List Nat) :
    (TeaKey.Encrypt k inp outp).isOk = true ∨
      TeaKey.Encrypt k inp outp = .error (em, inp, outp) := by
  unfold TeaKey.Encrypt
  by_cases h : lenBad inp.length outp.length
  · right; rw [if_pos h]
  · left; rw [if_neg h]; rfl

theorem Decrypt_cases (k : TeaKey) (inp outp : List Nat) :
    (TeaKey.Decrypt k inp outp).isOk = true ∨
      TeaKey.Decrypt k inp outp = .error (em, inp, outp) := by
  unfold TeaKey.Decrypt
  by_cases h : lenBad inp.length outp.length
  · right; rw [if_pos h]
  · left; rw [if_neg h]; rfl

/-! ### The claims -/

/-- C1: for every key constructed by `NewKey` and every pair of equal-length
buffers with `12 ≤ L ≤ 208` and `L % 4 = 0`, decrypting the encryption of a
message `m` yields `m` again, for independent scratch buffers as well as
fully in place (`in == out` in both calls). -/
theorem C1_round_trip (b m s1 s2 : List Nat) (k : TeaKey) (L : Nat)
    (hkey : NewKey b = .ok k) (hm : m.length = L) (hs1 : s1.length = L) (hs2 : s2.length = L)
    (h12 : 12 ≤ L) (h208 : L ≤ 208) (h4 : L % 4 = 0) (hbytes : ∀ x ∈ m, x < 256) :
    ∃ c, TeaKey.Encrypt k m s1 = .ok c ∧ TeaKey.Decrypt k c s2 = .ok m ∧
      TeaKey.Encrypt k m m = .ok c ∧ TeaKey.Decrypt k c c = .ok m := by
  obtain ⟨hc, hdec⟩ := Decrypt_of_Encrypt k hm h12 h208 h4 hbytes
  exact ⟨storeWords (encryptWords k (L / 4) (loadWords m)),
    Encrypt_ok k hm hs1 h12 h208 h4, hdec s2 hs2,
    Encrypt_ok k hm hm h12 h208 h4, hdec _ hc⟩

/-- Witness for C1 at the 16-byte ASCII key `0123456789ABCDEF` and a
concrete 12-byte message, in-place. -/
theorem C1_round_trip_witness :
    ∃ c, TeaKey.Encrypt ⟨808530483, 875902519, 943276354, 1128547654⟩
        [65, 98, 67, 100, 69, 70, 103, 72, 105, 106, 75, 108]
        [65, 98, 67, 100, 69, 70, 103, 72, 105, 106, 75, 108] = .ok c ∧
      TeaKey.Decrypt ⟨808530483, 875902519, 943276354, 1128547654⟩ c
        [65, 98, 67, 100, 69, 70, 103, 72, 105, 106, 75, 108] = .ok
        [65, 98, 67, 100, 69, 70, 103, 72, 105, 106, 75, 108] ∧
      TeaKey.Encrypt ⟨808530483, 875902519, 943276354, 1128547654⟩
        [65, 98, 67, 100, 69, 70, 103, 72, 105, 106, 75, 108]
        [65, 98, 67, 100, 69, 70, 103, 72, 105, 106, 75, 108] = .ok c ∧
      TeaKey.Decrypt ⟨808530483, 875902519, 943276354, 1128547654⟩ c c = .ok
        [65, 98, 67, 100, 69, 70, 103, 72, 105, 106, 75, 108] :=
  C1_round_trip [48, 49, 50, 51, 52, 53, 54, 55, 56, 57, 65, 66, 67, 68, 69, 70]
    [65, 98, 67, 100, 69, 70, 103, 72, 105, 106, 75, 108]
    [65, 98, 67, 100, 69, 70, 103, 72, 105, 106, 75, 108]
    [65, 98, 67, 100, 69, 70, 103, 72, 105, 106, 75, 108]
    ⟨808530483, 875902519, 943276354, 1128547654⟩ 12
    (by rfl) (by decide) (by decide) (by decide)
    (by decide) (by decide) (by decide) (by decide)

/-- C2: for every valid key and valid-length input, `Encrypt` computes
exactly the algorithm of spec section 4.4 — words loaded big-endian,
`rounds = 6 + 52/N`, per-round `sum += DELTA` and `e = (sum >> 2) & 3`,
each word incremented by `MX` with key word `(p & 3) ^ e`, all modulo
`2^32`, serialized back big-endian. -/
theorem C2_encrypt_is_spec_algorithm (k : TeaKey) (inp outp : List Nat) (L : Nat)
    (hin : inp.length = L) (hout : outp.length = L) (h12 : 12 ≤ L) (h208 : L ≤ 208)
    (h4 : L % 4 = 0) :
    TeaKey.Encrypt k inp outp = .ok (storeWords (specEncryptWords k (loadWords inp))) := by
  rw [Encrypt_ok k hin hout h12 h208 h4,
    encryptWords_specEncryptWords k (n := L / 4)
      (by rw [length_loadWords (L / 4) inp (by omega), hin])]

/-- Witness for C2 at a concrete key and 12-byte input. -/
theorem C2_encrypt_is_spec_algorithm_witness :
    TeaKey.Encrypt ⟨808530483, 875902519, 943276354, 1128547654⟩
        [65, 98, 67, 100, 69, 70, 103, 72, 105, 106, 75, 108]
        [65, 98, 67, 100, 69, 70, 103, 72, 105, 106, 75, 108] =
      .ok (storeWords (specEncryptWords ⟨808530483, 875902519, 943276354, 1128547654⟩
        (loadWords [65, 98, 67, 100, 69, 70, 103, 72, 105, 106, 75, 108]))) :=
  C2_encrypt_is_spec_algorithm ⟨808530483, 875902519, 943276354, 1128547654⟩
    [65, 98, 67, 100, 69, 70, 103, 72, 105, 106, 75, 108]
    [65, 98, 67, 100, 69, 70, 103, 72, 105, 106, 75, 108] 12
    (by decide) (by decide) (by decide) (by decide) (by decide)

theorem Encrypt_isOk_false_iff (k : TeaKey) (inp outp : List Nat) :
    (TeaKey.Encrypt k inp outp).isOk = false ↔ lenBad inp.length outp.length := by
  unfold TeaKey.Encrypt
  by_cases h : lenBad inp.length outp.length
  · rw [if_pos h]
    exact iff_of_true rfl h
  · rw [if_neg h]
    exact iff_of_false (by decide : ¬ (true = false)) h

theorem Decrypt_isOk_false_iff (k : TeaKey) (inp outp : List Nat) :
    (TeaKey.Decrypt k inp outp).isOk = false ↔ lenBad inp.length outp.length := by
  unfold TeaKey.Decrypt
  by_cases h : lenBad inp.length outp.length
  · rw [if_pos h]
    exact iff_of_true rfl h
  · rw [if_neg h]
    exact iff_of_false (by decide : ¬ (true = false)) h

/-- C3, counterexample to the claim as stated: buffers of length
`2^32 + 12` — longer than 208 bytes — pass the `uint32`-cast length check of
`Encrypt`, which therefore succeeds instead of failing. -/
theorem C3_counterexample :
    208 < (List.replicate 4294967308 (0 : Nat)).length ∧
      (TeaKey.Encrypt ⟨1, 2, 3, 4⟩ (List.replicate 4294967308 (0 : Nat))
        (List.replicate 4294967308 (0 : Nat))).isOk = true := by
  constructor
  · rw [List.length_replicate]
    norm_num
  · unfold TeaKey.Encrypt
    rw [if_neg (by rw [List.length_replicate]; decide)]
    rfl

/-- C3 (amended to buffers shorter than `2^32`, where the `uint32` length
cast is lossless): `Encrypt` and `Decrypt` fail if and only if
`len(in) < 12`, `len(in) > 208`, `len(in) % 4 ≠ 0`, or
`len(in) ≠ len(out)`; in particular they fail for input lengths 8, 9 and
212, fail for 16-byte input with 32-byte output, and succeed for equal
lengths 12 and 208. -/
theorem C3_length_validation (k : TeaKey) (inp outp : List Nat)
    (hin : inp.length < M32) (hout : outp.length < M32) :
    ((TeaKey.Encrypt k inp outp).isOk = false ↔
      (inp.length < 12 ∨ 208 < inp.length ∨ inp.length % 4 ≠ 0 ∨
        inp.length ≠ outp.length)) ∧
    ((TeaKey.Decrypt k inp outp).isOk = false ↔
      (inp.length < 12 ∨ 208 < inp.length ∨ inp.length % 4 ≠ 0 ∨
        inp.length ≠ outp.length)) ∧
    (inp.length = 8 ∨ inp.length = 9 ∨ inp.length = 212 →
      (TeaKey.Encrypt k inp outp).isOk = false ∧
        (TeaKey.Decrypt k inp outp).isOk = false) ∧
    (inp.length = 16 ∧ outp.length = 32 →
      (TeaKey.Encrypt k inp outp).isOk = false ∧
        (TeaKey.Decrypt k inp outp).isOk = false) ∧
    ((inp.length = 12 ∨ inp.length = 208) ∧ inp.length = outp.length →
      (TeaKey.Encrypt k inp outp).isOk = true ∧
        (TeaKey.Decrypt k inp outp).isOk = true) := by
  have he := (Encrypt_isOk_false_iff k inp outp).trans (lenBad_iff_of_lt hin hout)
  have hd := (Decrypt_isOk_false_iff k inp outp).trans (lenBad_iff_of_lt hin hout)
  refine ⟨he, hd, fun h => ⟨he.mpr (by omega), hd.mpr (by omega)⟩,
    fun h => ⟨he.mpr (by omega), hd.mpr (by omega)⟩, fun h => ?_⟩
  constructor
  · cases hok : (TeaKey.Encrypt k inp outp).isOk
    · exact absurd (he.mp hok) (by omega)
    · rfl
  · cases hok : (TeaKey.Decrypt k inp outp).isOk
    · exact absurd (hd.mp hok) (by omega)
    · rfl

/-- Witness for the amended C3: an 8-byte buffer is rejected. -/
theorem C3_length_validation_witness :
    (TeaKey.Encrypt (⟨1, 2, 3, 4⟩ : TeaKey) [0, 0, 0, 0, 0, 0, 0, 0]
      [0, 0, 0, 0, 0, 0, 0, 0]).isOk = false :=
  ((C3_length_validation ⟨1, 2, 3, 4⟩ [0, 0, 0, 0, 0, 0, 0, 0] [0, 0, 0, 0, 0, 0, 0, 0]
    (by decide) (by decide)).1).mpr (by decide)

theorem forall_mem_zero_iff_getD {b : List Nat} :
    (∀ x ∈ b, x = 0) ↔ ∀ i, i < b.length → b.getD i 0 = 0 := by
  constructor
  · intro h i hi
    rw [List.getD_eq_getElem?_getD, List.getElem?_eq_getElem hi]
    exact h _ (List.getElem_mem hi)
  · intro h x hx
    obtain ⟨i, hi, rfl⟩ := List.mem_iff_getElem.mp hx
    have := h i hi
    rwa [List.getD_eq_getElem?_getD, List.getElem?_eq_getElem hi] at this

/-- C4: `NewKey` fails exactly when the buffer is not 16 bytes or all bytes
are zero (equivalently: the or-accumulator of the four derived words is
zero); on success, word `i` of the key is the big-endian interpretation of
bytes `4i .. 4i+3`, so byte 0 is the most significant byte of word 0. -/
theorem C4_key_validation (b : List Nat) :
    ((NewKey b).isOk = false ↔ (b.length ≠ 16 ∨ ∀ x ∈ b, x = 0)) ∧
    (b.length = 16 →
      (word32 (b.getD 0 0) (b.getD 1 0) (b.getD 2 0) (b.getD 3 0) |||
        (word32 (b.getD 4 0) (b.getD 5 0) (b.getD 6 0) (b.getD 7 0) |||
          (word32 (b.getD 8 0) (b.getD 9 0) (b.getD 10 0) (b.getD 11 0) |||
            word32 (b.getD 12 0) (b.getD 13 0) (b.getD 14 0) (b.getD 15 0))) = 0 ↔
        ∀ x ∈ b, x = 0)) ∧
    (∀ k : TeaKey, NewKey b = .ok k →
      k = ⟨word32 (b.getD 0 0) (b.getD 1 0) (b.getD 2 0) (b.getD 3 0),
           word32 (b.getD 4 0) (b.getD 5 0) (b.getD 6 0) (b.getD 7 0),
           word32 (b.getD 8 0) (b.getD 9 0) (b.getD 10 0) (b.getD 11 0),
           word32 (b.getD 12 0) (b.getD 13 0) (b.getD 14 0) (b.getD 15 0)⟩) := by
  have hor : b.length = 16 →
      (word32 (b.getD 0 0) (b.getD 1 0) (b.getD 2 0) (b.getD 3 0) |||
        (word32 (b.getD 4 0) (b.getD 5 0) (b.getD 6 0) (b.getD 7 0) |||
          (word32 (b.getD 8 0) (b.getD 9 0) (b.getD 10 0) (b.getD 11 0) |||
            word32 (b.getD 12 0) (b.getD 13 0) (b.getD 14 0) (b.getD 15 0))) = 0 ↔
        ∀ x ∈ b, x = 0) := by
    intro h16
    rw [lor_eq_zero_iff, lor_eq_zero_iff, lor_eq_zero_iff,
      word32_eq_zero_iff, word32_eq_zero_iff, word32_eq_zero_iff, word32_eq_zero_iff,
      forall_mem_zero_iff_getD]
    constructor
    · intro h i hi
      rw [h16] at hi
      interval_cases i <;> tauto
    · intro h
      exact ⟨⟨h 0 (by omega), h 1 (by omega), h 2 (by omega), h 3 (by omega)⟩,
        ⟨h 4 (by omega), h 5 (by omega), h 6 (by omega), h 7 (by omega)⟩,
        ⟨h 8 (by omega), h 9 (by omega), h 10 (by omega), h 11 (by omega)⟩,
        h 12 (by omega), h 13 (by omega), h 14 (by omega), h 15 (by omega)⟩
  refine ⟨?_, hor, ?_⟩
  · unfold NewKey
    by_cases h1 : b.length ≠ 16
    · rw [if_pos h1]
      exact iff_of_true rfl (Or.inl h1)
    · rw [if_neg h1]
      push_neg at h1
      by_cases h2 : word32 (b.getD 0 0) (b.getD 1 0) (b.getD 2 0) (b.getD 3 0) |||
          (word32 (b.getD 4 0) (b.getD 5 0) (b.getD 6 0) (b.getD 7 0) |||
            (word32 (b.getD 8 0) (b.getD 9 0) (b.getD 10 0) (b.getD 11 0) |||
              word32 (b.getD 12 0) (b.getD 13 0) (b.getD 14 0) (b.getD 15 0))) = 0
      · rw [if_pos h2]
        exact iff_of_true rfl (Or.inr ((hor h1).mp h2))
      · rw [if_neg h2]
        refine iff_of_false (by decide : ¬ (true = false)) ?_
        rintro (h | h)
        · omega
        · exact h2 ((hor h1).mpr h)
  · intro k hk
    unfold NewKey at hk
    by_cases h1 : b.length ≠ 16
    · rw [if_pos h1] at hk
      exact Except.noConfusion hk
    · rw [if_neg h1] at hk
      by_cases h2 : word32 (b.getD 0 0) (b.getD 1 0) (b.getD 2 0) (b.getD 3 0) |||
          (word32 (b.getD 4 0) (b.getD 5 0) (b.getD 6 0) (b.getD 7 0) |||
            (word32 (b.getD 8 0) (b.getD 9 0) (b.getD 10 0) (b.getD 11 0) |||
              word32 (b.getD 12 0) (b.getD 13 0) (b.getD 14 0) (b.getD 15 0))) = 0
      · rw [if_pos h2] at hk
        exact Except.noConfusion hk
      · rw [if_neg h2] at hk
        injection hk with h
        exact h.symm

/-- Witness for C4: the ASCII key `0123456789ABCDEF` is accepted and packed
big-endian. -/
theorem C4_key_validation_witness :
    (⟨808530483, 875902519, 943276354, 1128547654⟩ : TeaKey) =
      ⟨word32 48 49 50 51, word32 52 53 54 55, word32 56 57 65 66, word32 67 68 69 70⟩ :=
  (C4_key_validation [48, 49, 50, 51, 52, 53, 54, 55, 56, 57, 65, 66, 67, 68, 69, 70]).2.2
    ⟨808530483, 875902519, 943276354, 1128547654⟩ (by rfl)

/-- C5: every public operation either succeeds or fails carrying exactly the
caller-supplied buffers as they were at the call — the panic is raised
before any byte of `in`, `out` or `buf` is modified, with no partial
result. -/
theorem C5_no_mutation_before_failure (b d inp outp : List Nat) (k : TeaKey) :
    ((NewKey b).isOk = true ∨ NewKey b = .error (em, b)) ∧
    ((AsBELE d).isOk = true ∨ AsBELE d = .error (em, d)) ∧
    ((AsLEBE d).isOk = true ∨ AsLEBE d = .error (em, d)) ∧
    ((AsLELE d).isOk = true ∨ AsLELE d = .error (em, d)) ∧
    ((TeaKey.Encrypt k inp outp).isOk = true ∨
      TeaKey.Encrypt k inp outp = .error (em, inp, outp)) ∧
    ((TeaKey.Decrypt k inp outp).isOk = true ∨
      TeaKey.Decrypt k inp outp = .error (em, inp, outp)) :=
  ⟨NewKey_cases b, AsBELE_cases d, AsLEBE_cases d, AsLELE_cases d,
    Encrypt_cases k inp outp, Decrypt_cases k inp outp⟩

/-- C6: each of the three endian transforms is self-inverse on every buffer
of length at least 4 and divisible by 4 (including an odd number of 4-byte
groups). -/
theorem C6_involutions (d : List Nat) (h4 : 4 ≤ d.length) (hdvd : d.length % 4 = 0) :
    (∃ r, AsBELE d = .ok r ∧ AsBELE r = .ok d) ∧
    (∃ r, AsLEBE d = .ok r ∧ AsLEBE r = .ok d) ∧
    (∃ r, AsLELE d = .ok r ∧ AsLELE r = .ok d) := by
  refine ⟨?_, ?_, ?_⟩
  · obtain ⟨r, hok, hrlen, hval⟩ := AsBELE_ok h4 hdvd
    obtain ⟨r2, hok2, hrlen2, hval2⟩ := AsBELE_ok (d := r) (by omega) (by omega)
    refine ⟨r, hok, ?_⟩
    rw [hok2]
    have : r2 = d := by
      refine ext_getD (by omega) ?_
      intro j hj
      rw [hval2 j (by omega), hrlen, hval _ (by omega)]
      exact getD_congr d (by omega)
    rw [this]
  · obtain ⟨r, hok, hrlen, hval⟩ := AsLEBE_ok h4 hdvd
    obtain ⟨r2, hok2, hrlen2, hval2⟩ := AsLEBE_ok (d := r) (by omega) (by omega)
    refine ⟨r, hok, ?_⟩
    rw [hok2]
    have : r2 = d := by
      refine ext_getD (by omega) ?_
      intro j hj
      rw [hval2 j (by omega), hval _ (by omega)]
      exact getD_congr d (by omega)
    rw [this]
  · obtain ⟨r, hok, hrlen, hval⟩ := AsLELE_ok h4 hdvd
    obtain ⟨r2, hok2, hrlen2, hval2⟩ := AsLELE_ok (d := r) (by omega) (by omega)
    refine ⟨r, hok, ?_⟩
    rw [hok2]
    have : r2 = d := by
      refine ext_getD (by omega) ?_
      intro j hj
      rw [hval2 j (by omega), hrlen, hval _ (by omega)]
      exact getD_congr d (by omega)
    rw [this]

/-- Witness for C6 at a 12-byte buffer (an odd number of 4-byte groups). -/
theorem C6_involutions_witness :
    (∃ r, AsBELE [0, 1, 2, 3, 4, 5, 6, 7, 8, 9, 10, 11] = .ok r ∧
      AsBELE r = .ok [0, 1, 2, 3, 4, 5, 6, 7, 8, 9, 10, 11]) ∧
    (∃ r, AsLEBE [0, 1, 2, 3, 4, 5, 6, 7, 8, 9, 10, 11] = .ok r ∧
      AsLEBE r = .ok [0, 1, 2, 3, 4, 5, 6, 7, 8, 9, 10, 11]) ∧
    (∃ r, AsLELE [0, 1, 2, 3, 4, 5, 6, 7, 8, 9, 10, 11] = .ok r ∧
      AsLELE r = .ok [0, 1, 2, 3, 4, 5, 6, 7, 8, 9, 10, 11]) :=
  C6_involutions [0, 1, 2, 3, 4, 5, 6, 7, 8, 9, 10, 11] (by decide) (by decide)

/-- C7: on every valid-length buffer, `ReverseWhole` (`AsLELE`) equals the
composition of `ReverseWordOrder` (`AsBELE`) and `ReverseBytesPerWord`
(`AsLEBE`), in either order. -/
theorem C7_whole_reversal_is_composition (d : List Nat) (h4 : 4 ≤ d.length)
    (hdvd : d.length % 4 = 0) :
    (∃ r3 r1 r2, AsLELE d = .ok r3 ∧ AsBELE d = .ok r1 ∧ AsLEBE r1 = .ok r2 ∧ r2 = r3) ∧
    (∃ r3 r1 r2, AsLELE d = .ok r3 ∧ AsLEBE d = .ok r1 ∧ AsBELE r1 = .ok r2 ∧ r2 = r3) := by
  obtain ⟨r3, hok3, hrlen3, hval3⟩ := AsLELE_ok h4 hdvd
  constructor
  · obtain ⟨r1, hok1, hrlen1, hval1⟩ := AsBELE_ok h4 hdvd
    obtain ⟨r2, hok2, hrlen2, hval2⟩ := AsLEBE_ok (d := r1) (by omega) (by omega)
    refine ⟨r3, r1, r2, hok3, hok1, hok2, ?_⟩
    refine ext_getD (by omega) ?_
    intro j hj
    rw [hval2 j (by omega), hval1 _ (by omega), hval3 j (by omega)]
    exact getD_congr d (by omega)
  · obtain ⟨r1, hok1, hrlen1, hval1⟩ := AsLEBE_ok h4 hdvd
    obtain ⟨r2, hok2, hrlen2, hval2⟩ := AsBELE_ok (d := r1) (by omega) (by omega)
    refine ⟨r3, r1, r2, hok3, hok1, hok2, ?_⟩
    refine ext_getD (by omega) ?_
    intro j hj
    rw [hval2 j (by omega), hrlen1, hval1 _ (by omega), hval3 j (by omega)]
    exact getD_congr d (by omega)

/-- Witness for C7 at a 12-byte buffer. -/
theorem C7_whole_reversal_is_composition_witness :
    (∃ r3 r1 r2, AsLELE [0, 1, 2, 3, 4, 5, 6, 7, 8, 9, 10, 11] = .ok r3 ∧
      AsBELE [0, 1, 2, 3, 4, 5, 6, 7, 8, 9, 10, 11] = .ok r1 ∧
      AsLEBE r1 = .ok r2 ∧ r2 = r3) ∧
    (∃ r3 r1 r2, AsLELE [0, 1, 2, 3, 4, 5, 6, 7, 8, 9, 10, 11] = .ok r3 ∧
      AsLEBE [0, 1, 2, 3, 4, 5, 6, 7, 8, 9, 10, 11] = .ok r1 ∧
      AsBELE r1 = .ok r2 ∧ r2 = r3) :=
  C7_whole_reversal_is_composition [0, 1, 2, 3, 4, 5, 6, 7, 8, 9, 10, 11]
    (by decide) (by decide)

/-- C8: on the concrete 16-byte vectors of the byte-layout table (ASCII),
each transform recovers the canonical layout `0123456789ABCDEF`. -/
theorem C8_layout_table :
    AsBELE [67, 68, 69, 70, 56, 57, 65, 66, 52, 53, 54, 55, 48, 49, 50, 51] =
      .ok [48, 49, 50, 51, 52, 53, 54, 55, 56, 57, 65, 66, 67, 68, 69, 70] ∧
    AsLEBE [51, 50, 49, 48, 55, 54, 53, 52, 66, 65, 57, 56, 70, 69, 68, 67] =
      .ok [48, 49, 50, 51, 52, 53, 54, 55, 56, 57, 65, 66, 67, 68, 69, 70] ∧
    AsLELE [70, 69, 68, 67, 66, 65, 57, 56, 55, 54, 53, 52, 51, 50, 49, 48] =
      .ok [48, 49, 50, 51, 52, 53, 54, 55, 56, 57, 65, 66, 67, 68, 69, 70] :=
  ⟨rfl, rfl, rfl⟩

/-- C9, counterexample to the claim as stated: buffers of length `2^32 + 12`
pass the length check of `Encrypt`, yet their word count `L/4` exceeds 52. -/
theorem C9_counterexample :
    (TeaKey.Encrypt ⟨1, 2, 3, 4⟩ (List.replicate 4294967308 (0 : Nat))
        (List.replicate 4294967308 (0 : Nat))).isOk = true ∧
      52 < (List.replicate 4294967308 (0 : Nat)).length / 4 := by
  constructor
  · unfold TeaKey.Encrypt
    rw [if_neg (by rw [List.length_replicate]; decide)]
    rfl
  · rw [List.length_replicate]
    norm_num

/-- C9 (amended: `N` is the word count the code derives from the `uint32`
cast of the length, `N = (L mod 2^32) / 4`): whenever the length check of
`Encrypt`/`Decrypt` passes, `3 ≤ N ≤ 52`, every byte index the load and
serialize loops use is inside `in` resp. `out`, every index into the
52-word working vector is below 52, the load loop produces exactly `N`
words, and every key index `(p & 3) ^ e` is below 4. -/
theorem C9_in_bounds (inp outp : List Nat) (hok : ¬ lenBad inp.length outp.length) :
    3 ≤ inp.length % M32 / 4 ∧ inp.length % M32 / 4 ≤ 52 ∧
    inp.length % M32 ≤ inp.length ∧ inp.length % M32 ≤ outp.length ∧
    (∀ j, j % 4 = 0 → j < inp.length % M32 →
      j + 3 < inp.length ∧ j + 3 < outp.length ∧ j / 4 < 52) ∧
    (loadWords (inp.take (inp.length % M32))).length = inp.length % M32 / 4 ∧
    (∀ s p : Nat, (p &&& 3) ^^^ ((s >>> 2) &&& 3) < 4) := by
  unfold lenBad at hok
  push_neg at hok
  obtain ⟨h12, h208, h4, heq⟩ := hok
  have hin : inp.length % M32 ≤ inp.length := Nat.mod_le _ _
  have hout : inp.length % M32 ≤ outp.length := heq ▸ Nat.mod_le _ _
  refine ⟨by omega, by omega, hin, hout, ?_, ?_, ?_⟩
  · intro j hj4 hj
    refine ⟨by omega, by omega, by omega⟩
  · rw [length_loadWords (inp.length % M32 / 4) _
      (by rw [List.length_take]; omega), List.length_take]
    omega
  · intro s p
    have h1 : p &&& 3 < 4 := Nat.lt_succ_of_le Nat.and_le_right
    have h2 : (s >>> 2) &&& 3 < 4 := Nat.lt_succ_of_le Nat.and_le_right
    have h3 := Nat.xor_lt_two_pow (n := 2) (by omega : p &&& 3 < 2 ^ 2)
      (by omega : (s >>> 2) &&& 3 < 2 ^ 2)
    omega

/-- Witness for the amended C9 at equal 12-byte buffers. -/
theorem C9_in_bounds_witness :
    3 ≤ (List.replicate 12 (0 : Nat)).length % M32 / 4 ∧
    (List.replicate 12 (0 : Nat)).length % M32 / 4 ≤ 52 ∧
    (List.replicate 12 (0 : Nat)).length % M32 ≤ (List.replicate 12 (0 : Nat)).length ∧
    (List.replicate 12 (0 : Nat)).length % M32 ≤ (List.replicate 12 (0 : Nat)).length ∧
    (∀ j, j % 4 = 0 → j < (List.replicate 12 (0 : Nat)).length % M32 →
      j + 3 < (List.replicate 12 (0 : Nat)).length ∧
        j + 3 < (List.replicate 12 (0 : Nat)).length ∧ j / 4 < 52) ∧
    (loadWords ((List.replicate 12 (0 : Nat)).take
      ((List.replicate 12 (0 : Nat)).length % M32))).length =
      (List.replicate 12 (0 : Nat)).length % M32 / 4 ∧
    (∀ s p : Nat, (p &&& 3) ^^^ ((s >>> 2) &&& 3) < 4) :=
  C9_in_bounds (List.replicate 12 0) (List.replicate 12 0) (by decide)

/-- C10: every failure of every public operation carries the identical
error value — the single shared misuse message string `em` — so the error
kinds of the spec's taxonomy are not distinguishable by the caller. -/
theorem C10_single_error_value (b d inp outp : List Nat) (k : TeaKey) :
    (∀ e, NewKey b = .error e → e.1 = em) ∧
    (∀ e, AsBELE d = .error e → e.1 = em) ∧
    (∀ e, AsLEBE d = .error e → e.1 = em) ∧
    (∀ e, AsLELE d = .error e → e.1 = em) ∧
    (∀ e, TeaKey.Encrypt k inp outp = .error e → e.1 = em) ∧
    (∀ e, TeaKey.Decrypt k inp outp = .error e → e.1 = em) := by
  refine ⟨fun e he => ?_, fun e he => ?_, fun e he => ?_, fun e he => ?_,
    fun e he => ?_, fun e he => ?_⟩
  · rcases NewKey_cases b with h | h
    · rw [he] at h; exact Bool.noConfusion h
    · rw [he] at h; injection h with h; rw [h]
  · rcases AsBELE_cases d with h | h
    · rw [he] at h; exact Bool.noConfusion h
    · rw [he] at h; injection h with h; rw [h]
  · rcases AsLEBE_cases d with h | h
    · rw [he] at h; exact Bool.noConfusion h
    · rw [he] at h; injection h with h; rw [h]
  · rcases AsLELE_cases d with h | h
    · rw [he] at h; exact Bool.noConfusion h
    · rw [he] at h; injection h with h; rw [h]
  · rcases Encrypt_cases k inp outp with h | h
    · rw [he] at h; exact Bool.noConfusion h
    · rw [he] at h; injection h with h; rw [h]
  · rcases Decrypt_cases k inp outp with h | h
    · rw [he] at h; exact Bool.noConfusion h
    · rw [he] at h; injection h with h; rw [h]

/-- Witness for C10: concrete failing calls all carry `em`. -/
theorem C10_single_error_value_witness :
    (em, ([] : List Nat)).1 = em ∧ (em, [(1 : Nat), 2, 3]).1 = em :=
  ⟨(C10_single_error_value [] [1, 2, 3] [] [] ⟨1, 0, 0, 0⟩).1 (em, []) (by rfl),
   (C10_single_error_value [] [1, 2, 3] [] [] ⟨1, 0, 0, 0⟩).2.1 (em, [1, 2, 3]) (by rfl)⟩

end XXTEA
